import Mathlib

/-!
Verification of the grid/cell data model and the A* search of the pathfinder
repository (`src/cell.py`, `src/pathfinder.py`).

Numbers: the source stores `f_score`/`g_score` as Python floats.  Every finite
value those fields ever take has the exact form `p + q * √2` with integers
`p, q` (the heuristic is `min(dx,dy)*sqrt(2) + abs(dx-dy)` and the step cost
is the integer 1), so scores are embedded exactly as such pairs together with
the distinguished initial value `inf`.  Object references (`last_node`, the
open/closed sets) are modelled by `(row, col)` coordinates, which identify
cells uniquely in a well-formed grid.
-/

namespace Pathfinder

/-- A score value: the float `inf` used as initial `f_score`/`g_score` in
`Cell.__init__`, or the exact real `p + q * √2`. -/
inductive Score where
  | inf : Score
  | fin (p q : ℤ) : Score
deriving DecidableEq, Repr

/-- Decides `p + q*√2 < p' + q'*√2` over the integers (see `ltQ2_iff`). -/
def ltQ2 (p q p' q' : ℤ) : Bool :=
  let dp := p' - p
  let dq := q - q'
  if dq < 0 then decide (0 ≤ dp) || decide (dp * dp < 2 * (dq * dq))
  else if dq = 0 then decide (0 < dp)
  else decide (0 < dp) && decide (2 * (dq * dq) < dp * dp)

/-- The float comparison `x < y` used by `Cell.__lt__`: `inf` is above every
finite value and not below itself. -/
def ltScore : Score → Score → Bool
  | .inf, _ => false
  | .fin _ _, .inf => true
  | .fin p q, .fin p' q' => ltQ2 p q p' q'

/-- Float addition on scores (`inf` absorbs). -/
def addScore : Score → Score → Score
  | .inf, _ => .inf
  | .fin _ _, .inf => .inf
  | .fin p q, .fin p' q' => .fin (p + p') (q + q')

/-- Real value of a finite score. -/
noncomputable def q2Real (p q : ℤ) : ℝ := (p : ℝ) + (q : ℝ) * Real.sqrt 2

/-- Real value of a score, `inf` mapped to `⊤`. -/
noncomputable def scoreVal : Score → WithTop ℝ
  | .inf => ⊤
  | .fin p q => (q2Real p q : ℝ)

theorem lt_of_mul_self_lt_mul_self_neg {x y : ℝ} (hy : y < 0) (h : x * x < y * y) :
    y < x := by
  rcases le_or_lt 0 x with hx | hx
  · linarith
  · nlinarith

theorem lt_of_mul_self_lt_mul_self_pos {x y : ℝ} (hx : 0 < x) (hy : 0 < y)
    (h : x * x < y * y) : x < y := by
  nlinarith

theorem ltQ2aux_iff (dp dq : ℤ) :
    (if dq < 0 then decide (0 ≤ dp) || decide (dp * dp < 2 * (dq * dq))
     else if dq = 0 then decide (0 < dp)
     else decide (0 < dp) && decide (2 * (dq * dq) < dp * dp)) = true ↔
      (dq : ℝ) * Real.sqrt 2 < (dp : ℝ) := by
  have hs2 : Real.sqrt 2 * Real.sqrt 2 = 2 := Real.mul_self_sqrt (by norm_num)
  have hs0 : (0 : ℝ) < Real.sqrt 2 := Real.sqrt_pos.mpr (by norm_num)
  by_cases h1 : dq < 0
  · have hdq0 : ((dq : ℝ)) < 0 := by exact_mod_cast h1
    have hA0 : (dq : ℝ) * Real.sqrt 2 < 0 := mul_neg_of_neg_of_pos hdq0 hs0
    simp only [h1, if_true, Bool.or_eq_true, decide_eq_true_eq]
    constructor
    · rintro (h | h)
      · have h' : (0 : ℝ) ≤ (dp : ℤ) := by exact_mod_cast h
        linarith
      · have h' : ((dp : ℝ)) * dp < 2 * ((dq : ℝ) * dq) := by exact_mod_cast h
        refine lt_of_mul_self_lt_mul_self_neg hA0 ?_
        calc (dp : ℝ) * dp < 2 * ((dq : ℝ) * dq) := h'
        _ = ((dq : ℝ) * Real.sqrt 2) * ((dq : ℝ) * Real.sqrt 2) := by
              rw [mul_mul_mul_comm, hs2]; ring
    · intro h
      rcases le_or_lt 0 dp with h2 | h2
      · exact Or.inl h2
      · refine Or.inr ?_
        have hdpr0 : ((dp : ℝ)) < 0 := by exact_mod_cast h2
        have : ((dp : ℝ)) * dp < 2 * ((dq : ℝ) * dq) := by nlinarith
        exact_mod_cast this
  · by_cases h2 : dq = 0
    · subst h2
      norm_num
    · have h3 : 0 < dq := lt_of_le_of_ne (not_lt.mp h1) (Ne.symm h2)
      have hdq0 : (0 : ℝ) < (dq : ℤ) := by exact_mod_cast h3
      have hA0 : (0 : ℝ) < (dq : ℝ) * Real.sqrt 2 := mul_pos hdq0 hs0
      simp only [h1, h2, if_false, Bool.and_eq_true, decide_eq_true_eq]
      constructor
      · rintro ⟨ha, hb⟩
        have hb' : 2 * ((dq : ℝ) * dq) < (dp : ℝ) * dp := by exact_mod_cast hb
        have ha' : (0 : ℝ) < (dp : ℤ) := by exact_mod_cast ha
        refine lt_of_mul_self_lt_mul_self_pos hA0 ha' ?_
        calc ((dq : ℝ) * Real.sqrt 2) * ((dq : ℝ) * Real.sqrt 2)
            = 2 * ((dq : ℝ) * dq) := by rw [mul_mul_mul_comm, hs2]; ring
        _ < (dp : ℝ) * dp := hb'
      · intro h
        have ha' : (0 : ℝ) < (dp : ℤ) := lt_trans hA0 h
        refine ⟨by exact_mod_cast ha', ?_⟩
        have : 2 * ((dq : ℝ) * dq) < (dp : ℝ) * dp := by nlinarith
        exact_mod_cast this

theorem ltQ2_iff (p q p' q' : ℤ) : ltQ2 p q p' q' = true ↔ q2Real p q < q2Real p' q' := by
  have h := ltQ2aux_iff (p' - p) (q - q')
  have hiff : ((q - q' : ℤ) : ℝ) * Real.sqrt 2 < ((p' - p : ℤ) : ℝ) ↔
      q2Real p q < q2Real p' q' := by
    unfold q2Real
    push_cast
    constructor <;> intro hlt <;> nlinarith [hlt]
  exact (ltQ2.eq_def p q p' q' ▸ h).trans hiff

theorem ltScore_iff (x y : Score) : ltScore x y = true ↔ scoreVal x < scoreVal y := by
  cases x <;> cases y <;>
    simp [ltScore, scoreVal, ltQ2_iff, WithTop.coe_lt_top, not_top_lt]

theorem ltScore_irrefl (x : Score) : ltScore x x = false := by
  have := ltScore_iff x x
  by_contra h
  exact lt_irrefl _ (this.mp (by revert h; cases ltScore x x <;> simp))

theorem ltScore_eq_false_iff (x y : Score) : ltScore x y = false ↔ scoreVal y ≤ scoreVal x := by
  rw [← not_lt, ← ltScore_iff]
  cases h : ltScore x y <;> simp [h]

/-!
## The cell data model (`cell.py`)

One record per `Cell` instance.  The class-level pygame drawing geometry
(`cell_width`/`cell_height`) and `draw_cell` never feed back into the grid or
search logic and are omitted; `color` is kept because the role setters and
the search read and write it.  `last_node` stores the coordinate of the
referenced cell.
-/

/-- The mutable state of one `Cell` (`Cell.__init__` attributes). -/
structure CellData where
  wasBlock : Bool            -- self._was_block
  row : ℤ                    -- self._row
  col : ℤ                    -- self._col
  fScore : Score             -- self._f_score
  gScore : Score             -- self._g_score
  lastNode : Option (ℤ × ℤ)  -- self._last_node (reference as coordinate)
  walkable : Bool            -- self._walkable
  color : ℕ × ℕ × ℕ          -- self._color
  isStartNode : Bool         -- self._is_start_node
  isEndNode : Bool           -- self._is_end_node
deriving DecidableEq, Repr

def white : ℕ × ℕ × ℕ := (255, 255, 255)

def black : ℕ × ℕ × ℕ := (0, 0, 0)

def green : ℕ × ℕ × ℕ := (106, 255, 20)

def yellow : ℕ × ℕ × ℕ := (247, 241, 47)

def red : ℕ × ℕ × ℕ := (255, 0, 0)

def purple : ℕ × ℕ × ℕ := (216, 0, 245)

def cyan : ℕ × ℕ × ℕ := (47, 234, 247)

/-- The `Cell.walkable` setter: repaints the cell black or white, then stores
the flag. -/
def setWalkable (c : CellData) (isWalkable : Bool) : CellData :=
  { c with color := if !isWalkable then black else white, walkable := isWalkable }

/-- The `Cell.is_start_node` setter.  When the role is granted it remembers
`_was_block = not walkable` and repaints; the line `self.walkable = True` is
commented out in the source, so the walkable flag itself is never modified
here.  When the role is cleared it only repaints from `_was_block`. -/
def setIsStartNode (c : CellData) (startNode : Bool) : CellData :=
  if !startNode then
    { c with color := if c.wasBlock then black else white, isStartNode := startNode }
  else
    { c with wasBlock := !c.walkable,
             color := if startNode then green else white,
             isStartNode := startNode }

/-- The `Cell.is_end_node` setter; same shape as `setIsStartNode` with the
bright yellow colour. -/
def setIsEndNode (c : CellData) (endNode : Bool) : CellData :=
  if !endNode then
    { c with color := if c.wasBlock then black else white, isEndNode := endNode }
  else
    { c with wasBlock := !c.walkable,
             color := if endNode then yellow else white,
             isEndNode := endNode }

/-- `Cell.__init__`: plain attributes are stored directly, and the last three
assignments (`walkable = True`, `color = (255,255,255)`,
`is_start_node, is_end_node = False, False`) run through the property
setters. -/
def mkCell (row col : ℤ) : CellData :=
  let c : CellData :=
    { wasBlock := false, row := row, col := col,
      fScore := .inf, gScore := .inf, lastNode := none,
      walkable := true, color := white, isStartNode := false, isEndNode := false }
  setIsEndNode (setIsStartNode { setWalkable c true with color := white } false) false

instance : Inhabited CellData := ⟨mkCell 0 0⟩

/-- `Cell.is_node_next_to_current_node`: the other cell is directly above,
below, left or right of this one. -/
def isNodeNextToCurrentNode (self other : CellData) : Bool :=
  (other.row == self.row && other.col + 1 == self.col) ||
  (other.row == self.row && other.col - 1 == self.col) ||
  (other.row - 1 == self.row && other.col == self.col) ||
  (other.row + 1 == self.row && other.col == self.col)

/-- `Cell.get_weight_score`: `(1 if next_to else 1.4) * 10`.  In binary64
floating point `1.4 * 10` evaluates to exactly `14.0`, so the result is the
integer 10 or 14. -/
def getWeightScore (self other : CellData) : ℤ :=
  if isNodeNextToCurrentNode self other then 1 * 10 else 14

/-- `Cell.__lt__`: compares `f_score`s (the other operand is always a `Cell`
in this program, so the `isinstance` branch is the interesting one). -/
def cellLt (self other : CellData) : Bool :=
  ltScore self.fScore other.fScore

/--
C2 counterexample: the claim says granting the Start (resp. End) role forces
`walkable = true`.  On a blocked cell (`walkable = false`) the role setter
leaves `walkable` at `false` — the forcing line is commented out in
`cell.py` — so the claim fails at this concrete input.
-/
theorem C2_counterexample :
    ¬ ((setIsStartNode (setWalkable (mkCell 0 0) false) true).walkable = true) ∧
    ¬ ((setIsEndNode (setWalkable (mkCell 0 0) false) true).walkable = true) := by
  decide

/--
C2 (amended): granting the Start or End role remembers the pre-assignment
walkability (`_was_block = not walkable`) but does not modify `walkable`;
clearing the role also leaves `walkable` unchanged — hence equal to its
pre-assignment value, which was never altered — and only restores the colour
from the remembered `_was_block` (black if it was a block, white otherwise).
-/
theorem C2_amended (c : CellData) :
    ((setIsStartNode c true).wasBlock = !c.walkable) ∧
    ((setIsStartNode c true).walkable = c.walkable) ∧
    ((setIsStartNode (setIsStartNode c true) false).walkable = c.walkable) ∧
    ((setIsStartNode c false).walkable = c.walkable) ∧
    ((setIsStartNode c false).color = if c.wasBlock then black else white) ∧
    ((setIsEndNode c true).wasBlock = !c.walkable) ∧
    ((setIsEndNode c true).walkable = c.walkable) ∧
    ((setIsEndNode (setIsEndNode c true) false).walkable = c.walkable) ∧
    ((setIsEndNode c false).walkable = c.walkable) ∧
    ((setIsEndNode c false).color = if c.wasBlock then black else white) := by
  simp [setIsStartNode, setIsEndNode]

/-!
## The grid (`pathfinder.py`)

`Grid` owns the 2D list of cells.  Object references (`self._start_node`,
`self._end_node`, the heap and set entries) are modelled as `(row, col)`
coordinates into the cell store; in a well-formed grid these identify cells
uniquely.  The pygame session flags (`_dragging_*`, `_erase_block_on`,
`_disable_events`, `_running`) drive the input handling, not the algorithmic
core; we model the uncancelled run, on which `_running` stays `True`.
-/

/-- Python list indexing `xs[i]`, including the negative-index wraparound
`xs[-k] = xs[len(xs) - k]`; an out-of-range index (`IndexError`) is `none`. -/
def pyGet {α : Type} (xs : List α) (i : ℤ) : Option α :=
  if 0 ≤ i then xs.get? i.toNat
  else if -(xs.length : ℤ) ≤ i then xs.get? (xs.length - (-i).toNat)
  else none

/-- The state of the `Grid` used by the core logic. -/
structure GridState where
  rows : ℕ                     -- self._rows (= _ROWS in the source)
  cols : ℕ                     -- self._cols (= _COLS in the source)
  grid : List (List CellData)  -- self._grid
  startNode : ℤ × ℤ            -- self._start_node (reference)
  endNode : ℤ × ℤ              -- self._end_node (reference)
deriving DecidableEq, Repr

/-- Dereference a cell coordinate (used where the source holds a direct,
already validated reference to a cell object). -/
def cellAt (g : GridState) (p : ℤ × ℤ) : CellData :=
  (g.grid.getD p.1.toNat []).getD p.2.toNat default

/-- Write back the state of the cell object referenced by `p`. -/
def setCellAt (g : GridState) (p : ℤ × ℤ) (c : CellData) : GridState :=
  { g with grid := g.grid.set p.1.toNat ((g.grid.getD p.1.toNat []).set p.2.toNat c) }

/-- Mutate the cell object referenced by `p`. -/
def modifyCell (g : GridState) (p : ℤ × ℤ) (f : CellData → CellData) : GridState :=
  setCellAt g p (f (cellAt g p))

/-- A coordinate lies on the grid. -/
def inBounds (g : GridState) (p : ℤ × ℤ) : Prop :=
  0 ≤ p.1 ∧ p.1 < (g.rows : ℤ) ∧ 0 ≤ p.2 ∧ p.2 < (g.cols : ℤ)

instance (g : GridState) (p : ℤ × ℤ) : Decidable (inBounds g p) := by
  unfold inBounds; infer_instance

/-- Well-formedness: the cell store is a `rows × cols` rectangle, each cell
records its own position, and the flag references are on the grid.  All of
this is established by `Grid.__init__` and preserved by every operation. -/
def WF (g : GridState) : Prop :=
  g.grid.length = g.rows ∧
  (∀ row ∈ g.grid, row.length = g.cols) ∧
  (∀ i < g.rows, ∀ j < g.cols,
    (cellAt g ((i : ℤ), (j : ℤ))).row = (i : ℤ) ∧
    (cellAt g ((i : ℤ), (j : ℤ))).col = (j : ℤ)) ∧
  inBounds g g.startNode ∧ inBounds g g.endNode

instance (g : GridState) : Decidable (WF g) := by
  unfold WF; infer_instance

/-- `Grid._is_valid_coordinate`: `row in range(self._rows) and col in
range(self._cols)` (for an `int`, membership in `range(n)` is exactly
`0 <= · < n`). -/
def isValidCoordinate (g : GridState) (row col : ℤ) : Bool :=
  (decide (0 ≤ row) && decide (row < (g.rows : ℤ))) &&
  (decide (0 ≤ col) && decide (col < (g.cols : ℤ)))

/-- `Grid.add_valid_neighbor`: the validity guard is evaluated first and only
then is `self._grid[row][col]` read — through Python indexing (`pyGet`), which
would wrap around for negative indices were it ever reached with one. -/
def addValidNeighbor (g : GridState) (row col : ℤ) (neighbors : List (ℤ × ℤ)) :
    List (ℤ × ℤ) :=
  if isValidCoordinate g row col then
    match (pyGet g.grid row).bind (fun r => pyGet r col) with
    | some cell => if cell.walkable then neighbors ++ [(row, col)] else neighbors
    | none => neighbors
  else neighbors

/-- `Grid._find_neighbors`: the eight candidate offsets in the fixed source
order. -/
def findNeighbors (g : GridState) (cell : CellData) : List (ℤ × ℤ) :=
  let n0 := addValidNeighbor g (cell.row + 1) (cell.col + 1) []
  let n1 := addValidNeighbor g cell.row (cell.col + 1) n0
  let n2 := addValidNeighbor g cell.row (cell.col - 1) n1
  let n3 := addValidNeighbor g (cell.row - 1) (cell.col + 1) n2
  let n4 := addValidNeighbor g (cell.row - 1) cell.col n3
  let n5 := addValidNeighbor g (cell.row + 1) cell.col n4
  let n6 := addValidNeighbor g (cell.row + 1) (cell.col - 1) n5
  addValidNeighbor g (cell.row - 1) (cell.col - 1) n6

/-- `Grid._compute_diagonal_distance`:
`min(dx, dy) * sqrt(2) + abs(dx - dy)`, exactly. -/
def computeDiagonalDistance (g : GridState) (currentNode : CellData) : Score :=
  let dx := |currentNode.row - (cellAt g g.endNode).row|
  let dy := |currentNode.col - (cellAt g g.endNode).col|
  .fin |dx - dy| (min dx dy)

/-- The per-cell body of `Grid._reset`: non-flag cells run the walkable setter
(with `True` if `reset_all_blocks` else the current value) and a conditional
whitening of the colour; every cell, flags included, gets `last_node = None`.
`g_score` and `f_score` are not touched. -/
def resetCell (resetAllBlocks : Bool) (cell : CellData) : CellData :=
  let cell1 :=
    if !cell.isStartNode && !cell.isEndNode then
      let c1 := setWalkable cell (if resetAllBlocks then true else cell.walkable)
      { c1 with color := if !resetAllBlocks && c1.walkable then white else c1.color }
    else cell
  { cell1 with lastNode := none }

/-- `Grid._reset` (the source default for `reset_all_blocks` is `True`). -/
def reset (g : GridState) (resetAllBlocks : Bool) : GridState :=
  { g with grid := g.grid.map (fun row => row.map (resetCell resetAllBlocks)) }

/-- `Grid._set_up_flag_nodes`: force both flag cells walkable, then re-grant
both roles (tuple assignments run left to right). -/
def setUpFlagNodes (g : GridState) : GridState :=
  let g1 := modifyCell g g.startNode (fun c => setWalkable c true)
  let g2 := modifyCell g1 g1.endNode (fun c => setWalkable c true)
  let g3 := modifyCell g2 g2.startNode (fun c => setIsStartNode c true)
  modifyCell g3 g3.endNode (fun c => setIsEndNode c true)

/-- `Grid._create_grid`. -/
def createGrid (rows cols : ℕ) : List (List CellData) :=
  (List.range rows).map
    (fun (row : ℕ) =>
      (List.range cols).map (fun (col : ℕ) => mkCell (row : ℤ) (col : ℤ)))

/-- The logic fields of `Grid.__init__`: a `rows × cols` grid of fresh cells,
the start flag granted at `(0, 0)` and the end flag at `(rows-1, cols-1)`.
The source fixes `rows = cols = 50` through the module constants `_ROWS` and
`_COLS`; they are parameters here. -/
def initGrid (rows cols : ℕ) : GridState :=
  let g : GridState :=
    { rows := rows, cols := cols, grid := createGrid rows cols,
      startNode := (0, 0), endNode := ((rows : ℤ) - 1, (cols : ℤ) - 1) }
  let g1 := modifyCell g g.startNode (fun c => setIsStartNode c true)
  modifyCell g1 g1.endNode (fun c => setIsEndNode c true)

/-- `Grid._is_a_flag_node`. -/
def isAFlagNode (g : GridState) (row col : ℤ) : Bool :=
  (cellAt g (row, col)).isStartNode || (cellAt g (row, col)).isEndNode

/-- `Grid._dragging_flag_node` with `'drag start flag'`: clear the flag on the
old start cell, re-home the reference, grant the flag on the new cell. -/
def dragStartFlagNode (g : GridState) (row col : ℤ) : GridState :=
  let g1 := modifyCell g g.startNode (fun c => setIsStartNode c false)
  let g2 := { g1 with startNode := (row, col) }
  modifyCell g2 g2.startNode (fun c => setIsStartNode c true)

/-- `Grid._dragging_flag_node` with any other tag (`'drag end flag'`). -/
def dragEndFlagNode (g : GridState) (row col : ℤ) : GridState :=
  let g1 := modifyCell g g.endNode (fun c => setIsEndNode c false)
  let g2 := { g1 with endNode := (row, col) }
  modifyCell g2 g2.endNode (fun c => setIsEndNode c true)

/-- The start-drag branch of `Grid._handle_mouse_motions_events`: the drag is
performed only when the target cell holds neither flag. -/
def moveStart (g : GridState) (row col : ℤ) : GridState :=
  if !(isAFlagNode g row col) then dragStartFlagNode g row col else g

/-- The end-drag branch of `Grid._handle_mouse_motions_events`. -/
def moveEnd (g : GridState) (row col : ℤ) : GridState :=
  if !(isAFlagNode g row col) then dragEndFlagNode g row col else g

/-- The block-creating branch of `Grid._handle_mouse_button_down_events`
(with `_erase_block_on` off): `_able_to_create_blocks` requires a walkable
non-flag cell, then the walkable setter paints it as a block. -/
def createBlock (g : GridState) (row col : ℤ) : GridState :=
  if (cellAt g (row, col)).walkable && !(isAFlagNode g row col) then
    modifyCell g (row, col) (fun c => setWalkable c false)
  else g

/-!
## The open set: `queue.PriorityQueue`

`PriorityQueue.put`/`get` are `heapq.heappush`/`heappop` on the backing list
`open_set.queue`, comparing entries with `Cell.__lt__`.  The functions below
are transcriptions of CPython's `heapq._siftdown`/`_siftup`; the item being
placed is threaded as an argument `newitem` (the source parks it in the hole
`heap[pos]`, a slot the loops never read before overwriting).  Comparisons
are a parameter `lt` because the search compares cells by their *current*
`f_score`, read from the evolving grid state.
-/

/-- The loop of `heapq._siftdown`, with structural fuel.  Each pass moves to
`parentpos = (pos - 1) / 2 < pos`, so with `fuel ≥ pos` the fuel never runs
out: when `fuel = 0` then `pos = 0 ≤ startpos` and the `0` branch coincides
with the loop-exit branch. -/
def siftdownGo {α : Type} [Inhabited α] (lt : α → α → Bool) :
    ℕ → List α → ℕ → ℕ → α → List α
  | 0, heap, _, pos, newitem => heap.set pos newitem
  | fuel + 1, heap, startpos, pos, newitem =>
    -- parentpos = (pos - 1) >> 1; parent = heap[parentpos]
    if startpos < pos then
      if lt newitem (heap.getD ((pos - 1) / 2) default) then
        siftdownGo lt fuel (heap.set pos (heap.getD ((pos - 1) / 2) default))
          startpos ((pos - 1) / 2) newitem
      else heap.set pos newitem
    else heap.set pos newitem

/-- `heapq._siftdown(heap, startpos, pos)`: bubble `newitem` up from `pos`
toward `startpos` while it compares below its parent. -/
def siftdown {α : Type} [Inhabited α] (lt : α → α → Bool) (heap : List α)
    (startpos pos : ℕ) (newitem : α) : List α :=
  siftdownGo lt pos heap startpos pos newitem

/-- The loop of `heapq._siftup`, with structural fuel.  Each pass moves to a
child position `> pos` while `2*pos+1 < heap.length`, so with
`fuel ≥ heap.length - pos` the fuel never runs out: when `fuel = 0` the loop
guard is false and the `0` branch coincides with the loop-exit branch. -/
def siftupGo {α : Type} [Inhabited α] (lt : α → α → Bool) :
    ℕ → List α → ℕ → ℕ → α → List α
  | 0, heap, startpos, pos, newitem => siftdown lt heap startpos pos newitem
  | fuel + 1, heap, startpos, pos, newitem =>
    -- endpos = len(heap); childpos = 2*pos+1; rightpos = childpos+1; the
    -- branch picks childpos2, the position of the smaller child
    if 2 * pos + 1 < heap.length then
      if 2 * pos + 1 + 1 < heap.length &&
          !(lt (heap.getD (2 * pos + 1) default)
            (heap.getD (2 * pos + 1 + 1) default)) then
        siftupGo lt fuel (heap.set pos (heap.getD (2 * pos + 1 + 1) default))
          startpos (2 * pos + 1 + 1) newitem
      else
        siftupGo lt fuel (heap.set pos (heap.getD (2 * pos + 1) default))
          startpos (2 * pos + 1) newitem
    else siftdown lt heap startpos pos newitem

/-- `heapq._siftup(heap, pos)`: move the hole at `pos` down to a leaf along
the smaller children (the comparison uses only `<`, and the child is never
compared with `newitem` here), then place `newitem` and sift it back up
toward the starting position. -/
def siftup {α : Type} [Inhabited α] (lt : α → α → Bool) (heap : List α)
    (pos : ℕ) (newitem : α) : List α :=
  siftupGo lt heap.length heap pos pos newitem

/-- `heapq.heappush`: append the item, then sift it down from the new leaf
toward the root. -/
def heappush {α : Type} [Inhabited α] (lt : α → α → Bool) (heap : List α)
    (item : α) : List α :=
  siftdown lt (heap ++ [item]) 0 heap.length item

/-- `heapq.heappop`: remove the last element; if the heap is now nonempty,
the root is the returned item and the last element is sifted up from the
root hole.  An empty heap raises in Python; the search loop only pops under
its `not open_set.empty()` guard, so that case is `none`. -/
def heappop {α : Type} [Inhabited α] (lt : α → α → Bool) (heap : List α) :
    Option (α × List α) :=
  if heap.isEmpty then none
  else
    let lastelt := heap.getLastD default
    let rest := heap.dropLast
    if rest.isEmpty then some (lastelt, rest)
    else some (rest.headD default, siftup lt rest 0 lastelt)

/-- The binary-heap ordering invariant `heapq` maintains as long as stored
priorities do not change behind its back: no element compares strictly below
its parent. -/
def heapProp {α : Type} [Inhabited α] (lt : α → α → Bool) (heap : List α) : Prop :=
  ∀ i, 0 < i → i < heap.length →
    lt (heap.getD i default) (heap.getD ((i - 1) / 2) default) = false

/-!
## The search engine (`Grid.find_optimal_path`)

The loop is embedded with explicit fuel (the source `while` loop; claim C8
shows `rows * cols` fuel never runs out).  `self._handle_events()` only
redraws while `_disable_events` is set during a search, and `_running` stays
`True` on an uncancelled run, so both are modelled as no-ops.  The
`pops`/`pushes` fields are ghost observations recording, for each iteration,
the popped entry and the open list (with the `f_score` each member had at
that moment), and the order of insertions; they influence nothing.
-/

/-- A ghost record of one `open_set.get()`. -/
structure PopEvent where
  popped : ℤ × ℤ
  poppedF : Score
  openBefore : List ((ℤ × ℤ) × Score)
deriving DecidableEq, Repr

/-- The state carried around the `while` loop. -/
structure LoopState where
  st : GridState
  opn : List (ℤ × ℤ)        -- open_set.queue (cell references)
  closed : List (ℤ × ℤ)     -- closed_set (a Python set of cells: membership
                            -- by identity, insertion by `add`)
  pops : List PopEvent      -- ghost
  pushes : List (ℤ × ℤ)     -- ghost
deriving DecidableEq

/-- `PathResult` of a run, the abstraction the specification gives for what
`find_optimal_path`/`_reconstruct_path` observably produce. -/
inductive PathResult where
  | found (path : List (ℤ × ℤ)) : PathResult
  | exhausted : PathResult
deriving DecidableEq, Repr

/-- `Cell.__lt__` applied to two heap entries, reading the current
`f_score`s from the grid state. -/
def keyLt (st : GridState) (a b : ℤ × ℤ) : Bool :=
  cellLt (cellAt st a) (cellAt st b)

/-- `Grid._is_optimal_neighbor`: decides whether the neighbor is to be
relaxed and, when it is, relaxes it (`last_node`, `g_score`, `f_score`). -/
def isOptimalNeighbor (st : GridState) (neighbor currentNode : ℤ × ℤ)
    (openQueue : List (ℤ × ℤ)) (closedSet : List (ℤ × ℤ)) :
    Bool × GridState :=
  let cells := openQueue
  let tentativeGScore := addScore (cellAt st currentNode).gScore (.fin 1 0)
  if !decide (neighbor ∈ closedSet) &&
      (ltScore tentativeGScore (cellAt st neighbor).gScore ||
        !decide (neighbor ∈ cells)) then
    (true,
      modifyCell st neighbor (fun c =>
        { c with lastNode := some currentNode,
                 gScore := tentativeGScore,
                 fScore := addScore tentativeGScore (computeDiagonalDistance st c) }))
  else (false, st)

/-- One iteration of the neighbor `for` loop in `Grid.find_optimal_path`:
relax, then `put` into the open set (and repaint purple) when the neighbor
was not already a member. -/
def processNeighbor (currentNode : ℤ × ℤ) (ls : LoopState) (neighbor : ℤ × ℤ) :
    LoopState :=
  let res := isOptimalNeighbor ls.st neighbor currentNode ls.opn ls.closed
  if res.1 && !decide (neighbor ∈ ls.opn) then
    { ls with
      st := modifyCell res.2 neighbor (fun c => { c with color := purple }),
      opn := heappush (keyLt res.2) ls.opn neighbor,
      pushes := ls.pushes ++ [neighbor] }
  else { ls with st := res.2 }

/-- `Grid._reconstruct_path` walks the `last_node` references from the end
node until `None`; the coordinates visited, in walk order.  Bounded by fuel
(the invariants of C7 show the bound is never hit). -/
def reconstructWalk (st : GridState) : ℕ → (ℤ × ℤ) → List (ℤ × ℤ)
  | 0, p => [p]
  | fuel + 1, p =>
    p :: (match (cellAt st p).lastNode with
          | none => []
          | some q => reconstructWalk st fuel q)

/-- The colouring side effect of `Grid._reconstruct_path`: every cell on the
walk turns cyan unless it is the start node. -/
def reconstructColors (st : GridState) (walk : List (ℤ × ℤ)) : GridState :=
  walk.foldl
    (fun s p => modifyCell s p
      (fun c => { c with color := if !c.isStartNode then cyan else c.color }))
    st

/-- The ghost pop record for one iteration: the popped reference, its current
`f_score`, and the open list with every member's current `f_score`. -/
def popEvent (ls : LoopState) (currentNode : ℤ × ℤ) : PopEvent :=
  ⟨currentNode, (cellAt ls.st currentNode).fScore,
    ls.opn.map (fun p => (p, (cellAt ls.st p).fScore))⟩

/-- `current_node.color = (current_node.color if current_node.is_start_node
else (255, 0, 0))`. -/
def markVisited (st : GridState) (currentNode : ℤ × ℤ) : GridState :=
  modifyCell st currentNode
    (fun c => { c with color := if c.isStartNode then c.color else red })

/-- The loop state right after the pop: visited colour, `closed_set.add`,
and the ghost pop record. -/
def postPop (ls : LoopState) (currentNode : ℤ × ℤ) (opn1 : List (ℤ × ℤ)) :
    LoopState :=
  { ls with st := markVisited ls.st currentNode, opn := opn1,
            closed := ls.closed.insert currentNode,
            pops := ls.pops ++ [popEvent ls currentNode] }

/-- `current_node.row == self._end_node.row and current_node.col ==
self._end_node.col`. -/
def isEndReached (st : GridState) (currentNode : ℤ × ℤ) : Bool :=
  (cellAt st currentNode).row == (cellAt st st.endNode).row &&
  (cellAt st currentNode).col == (cellAt st st.endNode).col

/-- The `Found` exit: reconstruct (walk and colour the predecessor chain),
re-grant the end flag on the popped cell, return.  The walk-fuel
`rows * cols` is shown sufficient in the C7 invariants. -/
def foundReturn (ls1 : LoopState) (currentNode : ℤ × ℤ) :
    PathResult × LoopState :=
  let walk := reconstructWalk ls1.st (ls1.st.rows * ls1.st.cols) currentNode
  (.found walk.reverse,
    { ls1 with
        st := modifyCell (reconstructColors ls1.st walk) currentNode
                (fun c => setIsEndNode c true) })

/-- The neighbor `for` loop of one iteration. -/
def expandNeighbors (ls1 : LoopState) (currentNode : ℤ × ℤ) : LoopState :=
  (findNeighbors ls1.st (cellAt ls1.st currentNode)).foldl
    (processNeighbor currentNode) ls1

/-- The `while` loop of `Grid.find_optimal_path`.  The fuel only bounds the
number of iterations of the source's unbounded `while`; claim C8 shows the
`rows * cols` budget of `findOptimalPath` is never exhausted. -/
def searchLoop : ℕ → LoopState → Option (PathResult × LoopState)
  | 0, ls => if ls.opn.isEmpty then some (.exhausted, ls) else none
  | fuel + 1, ls =>
    if ls.opn.isEmpty then some (.exhausted, ls)
    else
      match heappop (keyLt ls.st) ls.opn with
      | none => some (.exhausted, ls)  -- unreachable: the open list is nonempty
      | some (currentNode, opn1) =>
        if isEndReached (markVisited ls.st currentNode) currentNode then
          some (foundReturn (postPop ls currentNode opn1) currentNode)
        else
          searchLoop fuel (expandNeighbors (postPop ls currentNode opn1) currentNode)

/-- `Grid.find_optimal_path`: flag setup, bookkeeping reset
(`reset_all_blocks=False`), seeding of the start node (its `g_score`, its
`put`, then its `f_score`), and the loop.  (`count` in the source is dead.) -/
def findOptimalPath (g : GridState) : Option (PathResult × LoopState) :=
  let g1 := setUpFlagNodes g
  let g2 := reset g1 false
  let g3 := modifyCell g2 g2.startNode (fun c => { c with gScore := .fin 0 0 })
  let opn0 := heappush (keyLt g3) [] g3.startNode
  let g4 := modifyCell g3 g3.startNode
    (fun c => { c with fScore := computeDiagonalDistance g3 (cellAt g3 g3.startNode) })
  searchLoop (g.rows * g.cols)
    { st := g4, opn := opn0, closed := [], pops := [], pushes := [g3.startNode] }

/-!
## Claim C5: the heuristic formula and the movement costs
-/

/--
C5 counterexample: the claim scales the heuristic by 10
(`(min(dx,dy)*sqrt(2) + |dx-dy|) * 10`), but `Grid._compute_diagonal_distance`
has no scale factor.  On the 1×2 grid (end cell `(0,1)`) the estimate from
`(0,0)` is `1`, not the claimed `10` (here `dx = 0`, `dy = 1`, so the claimed
value is `(min 0 1 * √2 + |0 - 1|) * 10 = 10`).
-/
theorem C5_counterexample :
    computeDiagonalDistance (initGrid 1 2) (cellAt (initGrid 1 2) (0, 0)) =
      .fin 1 0 ∧
    scoreVal (.fin 1 0) ≠
      (((min (0 : ℝ) 1 * Real.sqrt 2 + |(0 : ℝ) - 1|) * 10 : ℝ) : WithTop ℝ) := by
  constructor
  · decide
  · simp only [scoreVal, q2Real]
    intro h
    have h' : ((1 : ℝ) + 0 * Real.sqrt 2) = (min (0 : ℝ) 1 * Real.sqrt 2 + |(0 : ℝ) - 1|) * 10 := by
      exact_mod_cast h
    norm_num at h'

/--
C5 (amended): the heuristic estimate of `Grid._compute_diagonal_distance`
equals `min(dx,dy) * √2 + |dx - dy|` with **no** scale factor, where
`dx`/`dy` are the absolute row/column distances to the end cell — hence it is
not on the ×10 scale of `Cell.get_weight_score`, which does return `10` for
an orthogonally adjacent cell and `14` (`1.4 * 10`) otherwise.
-/
theorem C5_amended (g : GridState) (a b c : CellData) :
    (scoreVal (computeDiagonalDistance g a) =
      ((min (abs ((a.row : ℝ) - ((cellAt g g.endNode).row : ℝ)))
            (abs ((a.col : ℝ) - ((cellAt g g.endNode).col : ℝ))) * Real.sqrt 2 +
        abs (abs ((a.row : ℝ) - ((cellAt g g.endNode).row : ℝ)) -
             abs ((a.col : ℝ) - ((cellAt g g.endNode).col : ℝ))) : ℝ) : WithTop ℝ)) ∧
    getWeightScore b c = if isNodeNextToCurrentNode b c then 10 else 14 := by
  constructor
  · simp only [computeDiagonalDistance, scoreVal, q2Real, WithTop.coe_eq_coe]
    push_cast
    ring
  · simp only [getWeightScore]
    split <;> norm_num

/-!
## Claims C6 and C10: the neighbor query
-/

theorem isValidCoordinate_iff (g : GridState) (r c : ℤ) :
    isValidCoordinate g r c = true ↔ inBounds g (r, c) := by
  simp [isValidCoordinate, inBounds, and_assoc]

theorem pyGet_of_nonneg {α : Type} (xs : List α) {i : ℤ} (h : 0 ≤ i) :
    pyGet xs i = xs.get? i.toNat := by
  simp [pyGet, h]

theorem getD_of_lt {α : Type} (xs : List α) (n : ℕ) (d : α) (h : n < xs.length) :
    xs.getD n d = xs[n] := by
  rw [List.getD_eq_getElem?_getD, List.getElem?_eq_getElem h, Option.getD_some]

/-- In a well-formed grid, the guarded Python lookup
`self._grid[row][col]` of `Grid.add_valid_neighbor` returns exactly the cell
the coordinate refers to. -/
theorem gridLookup_eq (g : GridState) (hg : WF g) {r c : ℤ}
    (hb : inBounds g (r, c)) :
    (pyGet g.grid r).bind (fun row => pyGet row c) = some (cellAt g (r, c)) := by
  obtain ⟨hlen, hrows, _⟩ := hg
  obtain ⟨h1, h2, h3, h4⟩ := hb
  have hr : r.toNat < g.grid.length := by omega
  rw [pyGet_of_nonneg _ h1, List.get?_eq_getElem?, List.getElem?_eq_getElem hr]
  have hrowlen : (g.grid[r.toNat]).length = g.cols :=
    hrows _ (List.getElem_mem hr)
  have hc : c.toNat < (g.grid[r.toNat]).length := by omega
  rw [Option.some_bind, pyGet_of_nonneg _ h3,
    List.get?_eq_getElem?, List.getElem?_eq_getElem hc]
  unfold cellAt
  rw [getD_of_lt _ _ _ hr, getD_of_lt _ _ _ hc]

/-- The contribution of one candidate coordinate to the neighbor list. -/
def candidate (g : GridState) (r c : ℤ) : List (ℤ × ℤ) :=
  if isValidCoordinate g r c && (cellAt g (r, c)).walkable then [(r, c)] else []

theorem addValidNeighbor_eq (g : GridState) (hg : WF g) (r c : ℤ)
    (ns : List (ℤ × ℤ)) :
    addValidNeighbor g r c ns = ns ++ candidate g r c := by
  unfold addValidNeighbor candidate
  by_cases hv : isValidCoordinate g r c
  · rw [gridLookup_eq g hg ((isValidCoordinate_iff g r c).mp hv)]
    simp only [hv, if_true, Bool.true_and]
    by_cases hw : (cellAt g (r, c)).walkable <;> simp [hw]
  · simp [hv]

theorem findNeighbors_eq (g : GridState) (hg : WF g) (cell : CellData) :
    findNeighbors g cell =
      candidate g (cell.row + 1) (cell.col + 1) ++
      candidate g cell.row (cell.col + 1) ++
      candidate g cell.row (cell.col - 1) ++
      candidate g (cell.row - 1) (cell.col + 1) ++
      candidate g (cell.row - 1) cell.col ++
      candidate g (cell.row + 1) cell.col ++
      candidate g (cell.row + 1) (cell.col - 1) ++
      candidate g (cell.row - 1) (cell.col - 1) := by
  unfold findNeighbors
  simp only [addValidNeighbor_eq g hg, List.nil_append, List.append_assoc]

theorem mem_candidate {g : GridState} {r c : ℤ} {p : ℤ × ℤ}
    (h : p ∈ candidate g r c) :
    p = (r, c) ∧ inBounds g p ∧ (cellAt g p).walkable = true := by
  unfold candidate at h
  by_cases hv : isValidCoordinate g r c && (cellAt g (r, c)).walkable
  · rw [if_pos hv] at h
    simp only [List.mem_singleton] at h
    subst h
    simp only [Bool.and_eq_true] at hv
    exact ⟨rfl, (isValidCoordinate_iff g r c).mp hv.1, hv.2⟩
  · rw [if_neg hv] at h
    exact absurd h (List.not_mem_nil p)

theorem self_mem_candidate {g : GridState} {r c : ℤ} (h1 : inBounds g (r, c))
    (h2 : (cellAt g (r, c)).walkable = true) : (r, c) ∈ candidate g r c := by
  unfold candidate
  rw [if_pos]
  · exact List.mem_singleton.mpr rfl
  · rw [Bool.and_eq_true, (isValidCoordinate_iff g r c)]
    exact ⟨h1, h2⟩

theorem candidate_length_le (g : GridState) (r c : ℤ) :
    (candidate g r c).length ≤ 1 := by
  unfold candidate
  split <;> simp

/-- What claim C6 asserts of the neighbor query of one cell. -/
def NeighborsSpec (g : GridState) (cell : CellData) : Prop :=
  (findNeighbors g cell).length ≤ 8 ∧
  (∀ p ∈ findNeighbors g cell, inBounds g p ∧ (cellAt g p).walkable = true) ∧
  (∀ p ∈ [(cell.row + 1, cell.col + 1), (cell.row, cell.col + 1),
          (cell.row, cell.col - 1), (cell.row - 1, cell.col + 1),
          (cell.row - 1, cell.col), (cell.row + 1, cell.col),
          (cell.row + 1, cell.col - 1), (cell.row - 1, cell.col - 1)],
    inBounds g p → (cellAt g p).walkable = true → p ∈ findNeighbors g cell) ∧
  findNeighbors g cell =
    candidate g (cell.row + 1) (cell.col + 1) ++
    candidate g cell.row (cell.col + 1) ++
    candidate g cell.row (cell.col - 1) ++
    candidate g (cell.row - 1) (cell.col + 1) ++
    candidate g (cell.row - 1) cell.col ++
    candidate g (cell.row + 1) cell.col ++
    candidate g (cell.row + 1) (cell.col - 1) ++
    candidate g (cell.row - 1) (cell.col - 1)

/--
C6: in a well-formed grid, `Grid._find_neighbors` returns at most 8 cells,
each on the grid and walkable; every in-bounds walkable cell among the eight
compass positions is included; and the result is exactly the concatenation of
the eight candidate checks in the fixed source order (a deterministic
function of the grid state, identical across runs).
-/
theorem C6_neighbors (g : GridState) (hg : WF g) (cell : CellData) :
    NeighborsSpec g cell := by
  have heq := findNeighbors_eq g hg cell
  refine ⟨?_, ?_, ?_, heq⟩
  · rw [heq]
    simp only [List.length_append]
    have h1 := candidate_length_le g (cell.row + 1) (cell.col + 1)
    have h2 := candidate_length_le g cell.row (cell.col + 1)
    have h3 := candidate_length_le g cell.row (cell.col - 1)
    have h4 := candidate_length_le g (cell.row - 1) (cell.col + 1)
    have h5 := candidate_length_le g (cell.row - 1) cell.col
    have h6 := candidate_length_le g (cell.row + 1) cell.col
    have h7 := candidate_length_le g (cell.row + 1) (cell.col - 1)
    have h8 := candidate_length_le g (cell.row - 1) (cell.col - 1)
    omega
  · intro p hp
    rw [heq] at hp
    simp only [List.mem_append] at hp
    rcases hp with ((((((h | h) | h) | h) | h) | h) | h) | h <;>
      exact (mem_candidate h).2
  · intro p hp
    rw [heq]
    simp only [List.mem_append]
    fin_cases hp <;> intro h1 h2 <;>
      simp [self_mem_candidate h1 h2]

/-- C6 witness: a concrete instance of the hypotheses and the conclusion. -/
theorem C6_neighbors_witness :
    WF (initGrid 3 3) ∧ NeighborsSpec (initGrid 3 3) (cellAt (initGrid 3 3) (0, 0)) :=
  ⟨by decide, C6_neighbors (initGrid 3 3) (by decide) (cellAt (initGrid 3 3) (0, 0))⟩

/-- What claim C10 asserts of coordinate validation and the neighbor query. -/
def ValidationSpec (g : GridState) (r c : ℤ) (ns : List (ℤ × ℤ))
    (cell : CellData) : Prop :=
  (isValidCoordinate g r c = true ↔
    (0 ≤ r ∧ r < (g.rows : ℤ) ∧ 0 ≤ c ∧ c < (g.cols : ℤ))) ∧
  ((r < 0 ∨ c < 0) → addValidNeighbor g r c ns = ns) ∧
  (∀ p ∈ findNeighbors g cell,
    inBounds g p ∧ |p.1 - cell.row| ≤ 1 ∧ |p.2 - cell.col| ≤ 1)

/--
C10: `Grid._is_valid_coordinate` accepts exactly `0 ≤ row < rows` and
`0 ≤ col < cols`; a candidate with a negative row or column is therefore
rejected by `Grid.add_valid_neighbor` before the `self._grid[row][col]`
lookup (whose Python negative indexing could wrap to the opposite edge), and
every returned neighbor is an in-bounds cell at Chebyshev distance at most 1
from the queried cell — never a wrapped-around cell on the far edge.
-/
theorem C10_validation (g : GridState) (hg : WF g) (r c : ℤ)
    (ns : List (ℤ × ℤ)) (cell : CellData) : ValidationSpec g r c ns cell := by
  refine ⟨(isValidCoordinate_iff g r c).trans (by unfold inBounds; simp), ?_, ?_⟩
  · intro hneg
    unfold addValidNeighbor
    rw [if_neg]
    intro hv
    rw [isValidCoordinate_iff] at hv
    obtain ⟨a1, a2, a3, a4⟩ := hv
    simp only at a1 a3
    omega
  · intro p hp
    rw [findNeighbors_eq g hg] at hp
    simp only [List.mem_append] at hp
    rcases hp with ((((((h | h) | h) | h) | h) | h) | h) | h <;>
      obtain ⟨hpe, hbb, _⟩ := mem_candidate h <;> subst hpe <;>
      refine ⟨hbb, ?_, ?_⟩ <;> simp only [abs_le] <;> omega

/-- C10 witness: a concrete instance of the hypotheses and the conclusion. -/
theorem C10_validation_witness :
    WF (initGrid 2 2) ∧
    ValidationSpec (initGrid 2 2) (-1) 0 [] (cellAt (initGrid 2 2) (0, 0)) :=
  ⟨by decide, C10_validation (initGrid 2 2) (by decide) (-1) 0 [] (cellAt (initGrid 2 2) (0, 0))⟩

/-!
## Claim C1: what `Grid._reset` clears
-/

theorem cellAt_reset (g : GridState) (hg : WF g) {p : ℤ × ℤ}
    (hp : inBounds g p) (b : Bool) :
    cellAt (reset g b) p = resetCell b (cellAt g p) := by
  obtain ⟨hlen, hrows, _⟩ := hg
  obtain ⟨h1, h2, h3, h4⟩ := hp
  have hr : p.1.toNat < g.grid.length := by omega
  have hrowlen : (g.grid[p.1.toNat]).length = g.cols :=
    hrows _ (List.getElem_mem hr)
  have hc : p.2.toNat < (g.grid[p.1.toNat]).length := by omega
  have e1 : (g.grid.map (fun row => row.map (resetCell b))).getD p.1.toNat [] =
      (g.grid[p.1.toNat]).map (resetCell b) := by
    rw [getD_of_lt _ _ _ (by simpa using hr), List.getElem_map]
  have e2 : ((g.grid[p.1.toNat]).map (resetCell b)).getD p.2.toNat default =
      resetCell b (g.grid[p.1.toNat][p.2.toNat]) := by
    rw [getD_of_lt _ _ _ (by simpa using hc), List.getElem_map]
  show ((g.grid.map (fun row => row.map (resetCell b))).getD p.1.toNat []).getD
      p.2.toNat default = resetCell b (cellAt g p)
  rw [e1, e2]
  unfold cellAt
  rw [getD_of_lt _ _ _ hr, getD_of_lt _ _ _ hc]

/--
C1 counterexample: run the search on the fresh 2×2 grid (it relaxes cell
`(0, 1)` to `g_score = 1`), then call `_reset(reset_all_blocks=False)`.  The
claim says every cell ends with `g_score = +∞`, but `Grid._reset` never
touches `g_score` (or `f_score`): cell `(0, 1)` still has `g_score = 1`.
-/
theorem C1_counterexample :
    (cellAt
      (reset
        (((findOptimalPath (initGrid 2 2)).getD
          (.exhausted, ⟨initGrid 2 2, [], ∅, [], []⟩)).2.st)
        false)
      (0, 1)).gScore ≠ Score.inf := by
  decide

/-- What the amended claim C1 asserts of `Grid._reset` at one cell. -/
def ResetSpec (g : GridState) (p : ℤ × ℤ) : Prop :=
  (cellAt (reset g false) p).lastNode = none ∧
  (cellAt (reset g false) p).gScore = (cellAt g p).gScore ∧
  (cellAt (reset g false) p).fScore = (cellAt g p).fScore ∧
  (cellAt (reset g false) p).walkable = (cellAt g p).walkable ∧
  (cellAt (reset g false) p).isStartNode = (cellAt g p).isStartNode ∧
  (cellAt (reset g false) p).isEndNode = (cellAt g p).isEndNode ∧
  (cellAt (reset g true) p).lastNode = none ∧
  (cellAt (reset g true) p).gScore = (cellAt g p).gScore ∧
  (cellAt (reset g true) p).fScore = (cellAt g p).fScore ∧
  (((cellAt g p).isStartNode || (cellAt g p).isEndNode) = false →
    (cellAt (reset g true) p).walkable = true) ∧
  (((cellAt g p).isStartNode || (cellAt g p).isEndNode) = true →
    (cellAt (reset g true) p).walkable = (cellAt g p).walkable)

/--
C1 (amended): `Grid._reset` clears `last_node` on every cell (flags
included) but leaves `g_score` and `f_score` untouched in both modes — the
initial `+∞` scores are set only at `Cell.__init__`, never restored here;
with `reset_all_blocks=True` every non-flag cell additionally becomes
walkable, while with `False` walkability is unchanged.  Flag cells never
change role or walkability.
-/
theorem C1_amended (g : GridState) (hg : WF g) (p : ℤ × ℤ)
    (hp : inBounds g p) : ResetSpec g p := by
  unfold ResetSpec
  rw [cellAt_reset g hg hp, cellAt_reset g hg hp]
  by_cases hs : (cellAt g p).isStartNode <;>
    by_cases he : (cellAt g p).isEndNode <;>
    simp [resetCell, setWalkable, hs, he]

/-- C1 witness: a concrete instance of the hypotheses and the conclusion. -/
theorem C1_amended_witness :
    WF (initGrid 2 2) ∧ inBounds (initGrid 2 2) (0, 1) ∧
    ResetSpec (initGrid 2 2) (0, 1) :=
  ⟨by decide, by decide, C1_amended (initGrid 2 2) (by decide) (0, 1) (by decide)⟩

/-!
## Reading and writing cells through references
-/

theorem cellAt_setCellAt_self {g : GridState} (hg : WF g) {p : ℤ × ℤ}
    (hp : inBounds g p) (c : CellData) : cellAt (setCellAt g p c) p = c := by
  obtain ⟨hlen, hrows, _⟩ := hg
  obtain ⟨h1, h2, h3, h4⟩ := hp
  have hr : p.1.toNat < g.grid.length := by omega
  have hrowlen : (g.grid[p.1.toNat]).length = g.cols :=
    hrows _ (List.getElem_mem hr)
  have hc : p.2.toNat < (g.grid[p.1.toNat]).length := by omega
  unfold cellAt setCellAt
  simp only
  have hrowD : g.grid.getD p.1.toNat [] = g.grid[p.1.toNat] := getD_of_lt _ _ _ hr
  have h1' : ∀ L : List CellData, (g.grid.set p.1.toNat L).getD p.1.toNat [] = L := by
    intro L
    rw [getD_of_lt _ _ _ (by simpa using hr), List.getElem_set, if_pos rfl]
  rw [h1', hrowD]
  have hc' : p.2.toNat < ((g.grid[p.1.toNat]).set p.2.toNat c).length := by
    rw [List.length_set]; exact hc
  rw [getD_of_lt _ _ _ hc', List.getElem_set, if_pos rfl]

theorem cellAt_setCellAt_ne {g : GridState} (hg : WF g) {p q : ℤ × ℤ}
    (hp : inBounds g p) (hq : inBounds g q) (hne : q ≠ p) (c : CellData) :
    cellAt (setCellAt g p c) q = cellAt g q := by
  obtain ⟨hlen, hrows, _⟩ := hg
  obtain ⟨a1, a2, a3, a4⟩ := hp
  obtain ⟨b1, b2, b3, b4⟩ := hq
  have hr : p.1.toNat < g.grid.length := by omega
  have hqr : q.1.toNat < g.grid.length := by omega
  unfold cellAt setCellAt
  simp only
  have houter : ∀ L : List CellData,
      (g.grid.set p.1.toNat L).getD q.1.toNat [] =
        if p.1.toNat = q.1.toNat then L else g.grid.getD q.1.toNat [] := by
    intro L
    rw [getD_of_lt _ _ _ (by simpa using hqr), List.getElem_set]
    split
    · rfl
    · rw [getD_of_lt _ _ _ hqr]
  rw [houter]
  by_cases hrow : p.1.toNat = q.1.toNat
  · have hcol : q.2.toNat ≠ p.2.toNat := by
      intro hce
      exact hne (Prod.ext (by omega) (by omega))
    rw [if_pos hrow, hrow]
    rw [List.getD_eq_getElem?_getD, List.getElem?_set_ne (fun h => hcol h.symm),
      ← List.getD_eq_getElem?_getD]
  · rw [if_neg hrow]

theorem cellAt_modifyCell_self {g : GridState} (hg : WF g) {p : ℤ × ℤ}
    (hp : inBounds g p) (f : CellData → CellData) :
    cellAt (modifyCell g p f) p = f (cellAt g p) :=
  cellAt_setCellAt_self hg hp _

theorem cellAt_modifyCell_ne {g : GridState} (hg : WF g) {p q : ℤ × ℤ}
    (hp : inBounds g p) (hq : inBounds g q) (hne : q ≠ p)
    (f : CellData → CellData) :
    cellAt (modifyCell g p f) q = cellAt g q :=
  cellAt_setCellAt_ne hg hp hq hne _

theorem WF_setCellAt {g : GridState} (hg : WF g) {p : ℤ × ℤ}
    (hp : inBounds g p) {c : CellData} (hrow : c.row = p.1) (hcol : c.col = p.2) :
    WF (setCellAt g p c) := by
  have hg' := hg
  obtain ⟨hlen, hrows, hcoords, hs, he⟩ := hg'
  have hb : ∀ q : ℤ × ℤ, inBounds (setCellAt g p c) q ↔ inBounds g q := fun q => Iff.rfl
  refine ⟨?_, ?_, ?_, hs, he⟩
  · simpa [setCellAt] using hlen
  · intro row hrow'
    simp only [setCellAt] at hrow'
    rcases List.mem_or_eq_of_mem_set hrow' with h | h
    · exact hrows _ h
    · subst h
      rw [List.length_set]
      obtain ⟨h1, h2, h3, h4⟩ := hp
      have hr : p.1.toNat < g.grid.length := by omega
      exact getD_of_lt _ _ _ hr ▸ hrows _ (List.getElem_mem hr)
  · intro i hi j hj
    have hi' : i < g.rows := hi
    have hj' : j < g.cols := hj
    have hq : inBounds g ((i : ℤ), (j : ℤ)) :=
      ⟨by simp, by simpa using hi', by simp, by simpa using hj'⟩
    by_cases hpq : ((i : ℤ), (j : ℤ)) = p
    · rw [show ((i : ℤ), (j : ℤ)) = p from hpq, cellAt_setCellAt_self hg hp c]
      rw [hrow, hcol, ← hpq]
      exact ⟨rfl, rfl⟩
    · rw [cellAt_setCellAt_ne hg hp hq hpq c]
      exact hcoords i hi' j hj'

theorem WF_modifyCell {g : GridState} (hg : WF g) {p : ℤ × ℤ}
    (hp : inBounds g p) {f : CellData → CellData}
    (hf : ∀ c, (f c).row = c.row ∧ (f c).col = c.col) :
    WF (modifyCell g p f) := by
  have hcoord : (cellAt g p).row = p.1 ∧ (cellAt g p).col = p.2 := by
    obtain ⟨hlen, hrows, hcoords, _⟩ := hg
    obtain ⟨h1, h2, h3, h4⟩ := hp
    have h := hcoords p.1.toNat (by omega) p.2.toNat (by omega)
    have e : ((p.1.toNat : ℤ), (p.2.toNat : ℤ)) = p := Prod.ext (by omega) (by omega)
    rw [e] at h
    constructor
    · rw [h.1]; omega
    · rw [h.2]; omega
  exact WF_setCellAt hg hp ((hf _).1.trans hcoord.1) ((hf _).2.trans hcoord.2)

/-!
## Claim C9: start/end exclusivity under flag drags
-/

theorem setIsStartNode_row (c : CellData) (b : Bool) :
    (setIsStartNode c b).row = c.row := by
  unfold setIsStartNode; split <;> rfl

theorem setIsStartNode_col (c : CellData) (b : Bool) :
    (setIsStartNode c b).col = c.col := by
  unfold setIsStartNode; split <;> rfl

theorem setIsStartNode_isStartNode (c : CellData) (b : Bool) :
    (setIsStartNode c b).isStartNode = b := by
  unfold setIsStartNode; split <;> rfl

theorem setIsStartNode_isEndNode (c : CellData) (b : Bool) :
    (setIsStartNode c b).isEndNode = c.isEndNode := by
  unfold setIsStartNode; split <;> rfl

theorem setIsEndNode_row (c : CellData) (b : Bool) :
    (setIsEndNode c b).row = c.row := by
  unfold setIsEndNode; split <;> rfl

theorem setIsEndNode_col (c : CellData) (b : Bool) :
    (setIsEndNode c b).col = c.col := by
  unfold setIsEndNode; split <;> rfl

theorem setIsEndNode_isEndNode (c : CellData) (b : Bool) :
    (setIsEndNode c b).isEndNode = b := by
  unfold setIsEndNode; split <;> rfl

theorem setIsEndNode_isStartNode (c : CellData) (b : Bool) :
    (setIsEndNode c b).isStartNode = c.isStartNode := by
  unfold setIsEndNode; split <;> rfl

theorem modifyCell_rows (g : GridState) (p : ℤ × ℤ) (f : CellData → CellData) :
    (modifyCell g p f).rows = g.rows := rfl

theorem modifyCell_cols (g : GridState) (p : ℤ × ℤ) (f : CellData → CellData) :
    (modifyCell g p f).cols = g.cols := rfl

theorem modifyCell_startNode (g : GridState) (p : ℤ × ℤ) (f : CellData → CellData) :
    (modifyCell g p f).startNode = g.startNode := rfl

theorem modifyCell_endNode (g : GridState) (p : ℤ × ℤ) (f : CellData → CellData) :
    (modifyCell g p f).endNode = g.endNode := rfl

/-- Exactly one cell carries the Start flag (the one the `_start_node`
reference points to), exactly one carries the End flag, and they differ. -/
def StartEndInv (g : GridState) : Prop :=
  inBounds g g.startNode ∧ inBounds g g.endNode ∧ g.startNode ≠ g.endNode ∧
  (∀ p, inBounds g p → ((cellAt g p).isStartNode = true ↔ p = g.startNode)) ∧
  (∀ p, inBounds g p → ((cellAt g p).isEndNode = true ↔ p = g.endNode))

/-- One user action that re-homes a flag (`_handle_mouse_motions_events`
while dragging). -/
inductive FlagMove where
  | moveStartTo (row col : ℤ) : FlagMove
  | moveEndTo (row col : ℤ) : FlagMove

def applyMove (g : GridState) : FlagMove → GridState
  | .moveStartTo r c => moveStart g r c
  | .moveEndTo r c => moveEnd g r c

/-- The mouse coordinate conversion always yields an on-screen, hence
in-bounds, coordinate. -/
def moveInBounds (rows cols : ℕ) : FlagMove → Prop
  | .moveStartTo r c => 0 ≤ r ∧ r < (rows : ℤ) ∧ 0 ≤ c ∧ c < (cols : ℤ)
  | .moveEndTo r c => 0 ≤ r ∧ r < (rows : ℤ) ∧ 0 ≤ c ∧ c < (cols : ℤ)

instance (rows cols : ℕ) (m : FlagMove) : Decidable (moveInBounds rows cols m) := by
  cases m <;> (unfold moveInBounds; infer_instance)

theorem moveStart_inv {g : GridState} (hg : WF g) (hinv : StartEndInv g)
    {r c : ℤ} (hb : inBounds g (r, c)) :
    WF (moveStart g r c) ∧ StartEndInv (moveStart g r c) ∧
    (moveStart g r c).rows = g.rows ∧ (moveStart g r c).cols = g.cols := by
  obtain ⟨hsb, heb, hsne, hsiff, heiff⟩ := hinv
  by_cases hflag : isAFlagNode g r c = true
  · have hmv : moveStart g r c = g := by unfold moveStart; rw [hflag]; rfl
    rw [hmv]
    exact ⟨hg, ⟨hsb, heb, hsne, hsiff, heiff⟩, rfl, rfl⟩
  · rw [Bool.not_eq_true] at hflag
    have hmv : moveStart g r c = dragStartFlagNode g r c := by
      unfold moveStart; rw [hflag]; rfl
    rw [hmv]
    have hflag' : (cellAt g (r, c)).isStartNode = false ∧
        (cellAt g (r, c)).isEndNode = false := by
      unfold isAFlagNode at hflag
      exact Bool.or_eq_false_iff.mp hflag
    obtain ⟨hfs, hfe⟩ := hflag'
    have hrc_ne_s : (r, c) ≠ g.startNode := by
      intro h
      have hx := (hsiff (r, c) hb).mpr h
      rw [hfs] at hx
      exact Bool.false_ne_true hx
    have hrc_ne_e : (r, c) ≠ g.endNode := by
      intro h
      have hx := (heiff (r, c) hb).mpr h
      rw [hfe] at hx
      exact Bool.false_ne_true hx
    have hdrag : dragStartFlagNode g r c =
        modifyCell
          { modifyCell g g.startNode (fun cc => setIsStartNode cc false) with
              startNode := (r, c) }
          (r, c) (fun cc => setIsStartNode cc true) := rfl
    rw [hdrag]
    have hwf1 : WF (modifyCell g g.startNode (fun cc => setIsStartNode cc false)) :=
      WF_modifyCell hg hsb
        (fun cc => ⟨setIsStartNode_row cc false, setIsStartNode_col cc false⟩)
    have hwf2 : WF ({ modifyCell g g.startNode (fun cc => setIsStartNode cc false) with
        startNode := (r, c) } : GridState) := by
      obtain ⟨w1, w2, w3, _, w5⟩ := hwf1
      exact ⟨w1, w2, w3, hb, w5⟩
    have hc1self : cellAt (modifyCell g g.startNode (fun cc => setIsStartNode cc false))
        g.startNode = setIsStartNode (cellAt g g.startNode) false :=
      cellAt_modifyCell_self hg hsb _
    have hc1ne : ∀ p, inBounds g p → p ≠ g.startNode →
        cellAt (modifyCell g g.startNode (fun cc => setIsStartNode cc false)) p =
          cellAt g p :=
      fun p hp hne => cellAt_modifyCell_ne hg hsb hp hne _
    have hwf3 : WF (modifyCell
        ({ modifyCell g g.startNode (fun cc => setIsStartNode cc false) with
            startNode := (r, c) } : GridState) (r, c)
        (fun cc => setIsStartNode cc true)) :=
      WF_modifyCell hwf2 hb
        (fun cc => ⟨setIsStartNode_row cc true, setIsStartNode_col cc true⟩)
    have hc3self : cellAt (modifyCell
        ({ modifyCell g g.startNode (fun cc => setIsStartNode cc false) with
            startNode := (r, c) } : GridState) (r, c)
        (fun cc => setIsStartNode cc true)) (r, c) =
        setIsStartNode (cellAt (modifyCell g g.startNode
          (fun cc => setIsStartNode cc false)) (r, c)) true :=
      cellAt_modifyCell_self hwf2 hb _
    have hc3ne : ∀ p, inBounds g p → p ≠ (r, c) →
        cellAt (modifyCell
          ({ modifyCell g g.startNode (fun cc => setIsStartNode cc false) with
              startNode := (r, c) } : GridState) (r, c)
          (fun cc => setIsStartNode cc true)) p =
        cellAt (modifyCell g g.startNode (fun cc => setIsStartNode cc false)) p :=
      fun p hp hne => cellAt_modifyCell_ne hwf2 hb hp hne _
    refine ⟨hwf3, ⟨hb, heb, fun h => hrc_ne_e h, ?_, ?_⟩, rfl, rfl⟩
    · intro p hp
      have hp' : inBounds g p := hp
      by_cases hprc : p = (r, c)
      · rw [hprc, hc3self]
        simp [setIsStartNode_isStartNode, modifyCell_startNode]
      · rw [hc3ne p hp' hprc]
        by_cases hps : p = g.startNode
        · have hval : (cellAt (modifyCell g g.startNode
              (fun cc => setIsStartNode cc false)) p).isStartNode = false := by
            rw [hps, hc1self, setIsStartNode_isStartNode]
          rw [hval]
          simp [modifyCell_startNode, hprc]
        · rw [hc1ne p hp' hps, hsiff p hp']
          simp [modifyCell_startNode, hps, hprc]
    · intro p hp
      have hp' : inBounds g p := hp
      have hstep : ∀ q, inBounds g q →
          (cellAt (modifyCell g g.startNode
            (fun cc => setIsStartNode cc false)) q).isEndNode =
          (cellAt g q).isEndNode := by
        intro q hq
        by_cases hqs : q = g.startNode
        · rw [hqs, hc1self, setIsStartNode_isEndNode]
        · rw [hc1ne q hq hqs]
      by_cases hprc : p = (r, c)
      · rw [hprc, hc3self, setIsStartNode_isEndNode, hstep (r, c) hb]
        show (cellAt g (r, c)).isEndNode = true ↔ (r, c) = g.endNode
        exact heiff (r, c) hb
      · rw [hc3ne p hp' hprc, hstep p hp']
        show (cellAt g p).isEndNode = true ↔ p = g.endNode
        exact heiff p hp'

theorem moveEnd_inv {g : GridState} (hg : WF g) (hinv : StartEndInv g)
    {r c : ℤ} (hb : inBounds g (r, c)) :
    WF (moveEnd g r c) ∧ StartEndInv (moveEnd g r c) ∧
    (moveEnd g r c).rows = g.rows ∧ (moveEnd g r c).cols = g.cols := by
  obtain ⟨hsb, heb, hsne, hsiff, heiff⟩ := hinv
  by_cases hflag : isAFlagNode g r c = true
  · have hmv : moveEnd g r c = g := by unfold moveEnd; rw [hflag]; rfl
    rw [hmv]
    exact ⟨hg, ⟨hsb, heb, hsne, hsiff, heiff⟩, rfl, rfl⟩
  · rw [Bool.not_eq_true] at hflag
    have hmv : moveEnd g r c = dragEndFlagNode g r c := by
      unfold moveEnd; rw [hflag]; rfl
    rw [hmv]
    have hflag' : (cellAt g (r, c)).isStartNode = false ∧
        (cellAt g (r, c)).isEndNode = false := by
      unfold isAFlagNode at hflag
      exact Bool.or_eq_false_iff.mp hflag
    obtain ⟨hfs, hfe⟩ := hflag'
    have hrc_ne_s : (r, c) ≠ g.startNode := by
      intro h
      have hx := (hsiff (r, c) hb).mpr h
      rw [hfs] at hx
      exact Bool.false_ne_true hx
    have hrc_ne_e : (r, c) ≠ g.endNode := by
      intro h
      have hx := (heiff (r, c) hb).mpr h
      rw [hfe] at hx
      exact Bool.false_ne_true hx
    have hdrag : dragEndFlagNode g r c =
        modifyCell
          { modifyCell g g.endNode (fun cc => setIsEndNode cc false) with
              endNode := (r, c) }
          (r, c) (fun cc => setIsEndNode cc true) := rfl
    rw [hdrag]
    have hwf1 : WF (modifyCell g g.endNode (fun cc => setIsEndNode cc false)) :=
      WF_modifyCell hg heb
        (fun cc => ⟨setIsEndNode_row cc false, setIsEndNode_col cc false⟩)
    have hwf2 : WF ({ modifyCell g g.endNode (fun cc => setIsEndNode cc false) with
        endNode := (r, c) } : GridState) := by
      obtain ⟨w1, w2, w3, w4, _⟩ := hwf1
      exact ⟨w1, w2, w3, w4, hb⟩
    have hc1self : cellAt (modifyCell g g.endNode (fun cc => setIsEndNode cc false))
        g.endNode = setIsEndNode (cellAt g g.endNode) false :=
      cellAt_modifyCell_self hg heb _
    have hc1ne : ∀ p, inBounds g p → p ≠ g.endNode →
        cellAt (modifyCell g g.endNode (fun cc => setIsEndNode cc false)) p =
          cellAt g p :=
      fun p hp hne => cellAt_modifyCell_ne hg heb hp hne _
    have hwf3 : WF (modifyCell
        ({ modifyCell g g.endNode (fun cc => setIsEndNode cc false) with
            endNode := (r, c) } : GridState) (r, c)
        (fun cc => setIsEndNode cc true)) :=
      WF_modifyCell hwf2 hb
        (fun cc => ⟨setIsEndNode_row cc true, setIsEndNode_col cc true⟩)
    have hc3self : cellAt (modifyCell
        ({ modifyCell g g.endNode (fun cc => setIsEndNode cc false) with
            endNode := (r, c) } : GridState) (r, c)
        (fun cc => setIsEndNode cc true)) (r, c) =
        setIsEndNode (cellAt (modifyCell g g.endNode
          (fun cc => setIsEndNode cc false)) (r, c)) true :=
      cellAt_modifyCell_self hwf2 hb _
    have hc3ne : ∀ p, inBounds g p → p ≠ (r, c) →
        cellAt (modifyCell
          ({ modifyCell g g.endNode (fun cc => setIsEndNode cc false) with
              endNode := (r, c) } : GridState) (r, c)
          (fun cc => setIsEndNode cc true)) p =
        cellAt (modifyCell g g.endNode (fun cc => setIsEndNode cc false)) p :=
      fun p hp hne => cellAt_modifyCell_ne hwf2 hb hp hne _
    refine ⟨hwf3, ⟨hsb, hb, fun h => hrc_ne_s h.symm, ?_, ?_⟩, rfl, rfl⟩
    · intro p hp
      have hp' : inBounds g p := hp
      have hstep : ∀ q, inBounds g q →
          (cellAt (modifyCell g g.endNode
            (fun cc => setIsEndNode cc false)) q).isStartNode =
          (cellAt g q).isStartNode := by
        intro q hq
        by_cases hqe : q = g.endNode
        · rw [hqe, hc1self, setIsEndNode_isStartNode]
        · rw [hc1ne q hq hqe]
      by_cases hprc : p = (r, c)
      · rw [hprc, hc3self, setIsEndNode_isStartNode, hstep (r, c) hb]
        show (cellAt g (r, c)).isStartNode = true ↔ (r, c) = g.startNode
        exact hsiff (r, c) hb
      · rw [hc3ne p hp' hprc, hstep p hp']
        show (cellAt g p).isStartNode = true ↔ p = g.startNode
        exact hsiff p hp'
    · intro p hp
      have hp' : inBounds g p := hp
      by_cases hprc : p = (r, c)
      · rw [hprc, hc3self]
        simp [setIsEndNode_isEndNode, modifyCell_endNode]
      · rw [hc3ne p hp' hprc]
        by_cases hpe : p = g.endNode
        · have hval : (cellAt (modifyCell g g.endNode
              (fun cc => setIsEndNode cc false)) p).isEndNode = false := by
            rw [hpe, hc1self, setIsEndNode_isEndNode]
          rw [hval]
          simp [modifyCell_endNode, hprc]
        · rw [hc1ne p hp' hpe, heiff p hp']
          simp [modifyCell_endNode, hpe, hprc]

theorem mkCell_eq (r c : ℤ) :
    mkCell r c =
      { wasBlock := false, row := r, col := c, fScore := .inf, gScore := .inf,
        lastNode := none, walkable := true, color := white,
        isStartNode := false, isEndNode := false } := rfl

/-- The state of `Grid.__init__` just before the two flag assignments. -/
def baseGrid (rows cols : ℕ) : GridState where
  rows := rows
  cols := cols
  grid := createGrid rows cols
  startNode := ((0 : ℤ), (0 : ℤ))
  endNode := (((rows : ℤ) - 1), ((cols : ℤ) - 1))

theorem baseGrid_rows (rows cols : ℕ) : (baseGrid rows cols).rows = rows := rfl

theorem baseGrid_cols (rows cols : ℕ) : (baseGrid rows cols).cols = cols := rfl

theorem baseGrid_startNode (rows cols : ℕ) :
    (baseGrid rows cols).startNode = ((0 : ℤ), (0 : ℤ)) := rfl

theorem baseGrid_endNode (rows cols : ℕ) :
    (baseGrid rows cols).endNode = (((rows : ℤ) - 1), ((cols : ℤ) - 1)) := rfl

theorem cellAt_createGrid (rows cols : ℕ) {p : ℤ × ℤ} (h1 : 0 ≤ p.1)
    (h2 : p.1 < (rows : ℤ)) (h3 : 0 ≤ p.2) (h4 : p.2 < (cols : ℤ)) :
    cellAt (baseGrid rows cols) p = mkCell p.1 p.2 := by
  have hrn : p.1.toNat < rows := by omega
  have hcn : p.2.toNat < cols := by omega
  show ((createGrid rows cols).getD p.1.toNat []).getD p.2.toNat default =
    mkCell p.1 p.2
  unfold createGrid
  have e1 : ((List.range rows).map
      (fun (row : ℕ) =>
        (List.range cols).map (fun (col : ℕ) => mkCell (row : ℤ) (col : ℤ)))).getD
        p.1.toNat [] =
      (List.range cols).map (fun (col : ℕ) => mkCell (p.1.toNat : ℤ) (col : ℤ)) := by
    rw [List.getD_eq_getElem?_getD, List.getElem?_map, List.getElem?_range hrn]
    simp only [Option.map_some', Option.getD_some]
  rw [e1, List.getD_eq_getElem?_getD, List.getElem?_map, List.getElem?_range hcn]
  simp only [Option.map_some', Option.getD_some]
  congr 1 <;> omega

theorem initGrid_inv (rows cols : ℕ) (h1 : 1 ≤ rows) (h2 : 1 ≤ cols)
    (hne : ¬(rows = 1 ∧ cols = 1)) :
    WF (initGrid rows cols) ∧ StartEndInv (initGrid rows cols) ∧
    (initGrid rows cols).rows = rows ∧ (initGrid rows cols).cols = cols := by
  have hSE : ((0 : ℤ), (0 : ℤ)) ≠ (((rows : ℤ) - 1), ((cols : ℤ) - 1)) := by
    intro h
    rw [Prod.mk.injEq] at h
    exact hne ⟨by omega, by omega⟩
  have hwfB : WF (baseGrid rows cols) := by
    refine ⟨by simp [baseGrid, createGrid], ?_, ?_, ?_, ?_⟩
    · intro row hrow
      have hrow' : row ∈ createGrid rows cols := hrow
      unfold createGrid at hrow'
      rw [List.mem_map] at hrow'
      obtain ⟨i, _, rfl⟩ := hrow'
      simp [baseGrid]
    · intro i hi j hj
      have hi' : i < rows := hi
      have hj' : j < cols := hj
      rw [cellAt_createGrid rows cols (by simp) (by simpa using hi')
        (by simp) (by simpa using hj'), mkCell_eq]
      exact ⟨rfl, rfl⟩
    · refine ⟨?_, ?_, ?_, ?_⟩ <;>
        simp only [baseGrid_rows, baseGrid_cols, baseGrid_startNode] <;> omega
    · refine ⟨?_, ?_, ?_, ?_⟩ <;>
        simp only [baseGrid_rows, baseGrid_cols, baseGrid_endNode] <;> omega
  have hbS : inBounds (baseGrid rows cols) ((0 : ℤ), (0 : ℤ)) := hwfB.2.2.2.1
  have hbE : inBounds (baseGrid rows cols)
      (((rows : ℤ) - 1), ((cols : ℤ) - 1)) := hwfB.2.2.2.2
  have hcellB : ∀ p : ℤ × ℤ, inBounds (baseGrid rows cols) p →
      cellAt (baseGrid rows cols) p = mkCell p.1 p.2 := by
    intro p hp
    obtain ⟨a1, a2, a3, a4⟩ := hp
    exact cellAt_createGrid rows cols a1 a2 a3 a4
  have hinit : initGrid rows cols =
      modifyCell
        (modifyCell (baseGrid rows cols) ((0 : ℤ), (0 : ℤ))
          (fun c => setIsStartNode c true))
        (((rows : ℤ) - 1), ((cols : ℤ) - 1)) (fun c => setIsEndNode c true) := rfl
  rw [hinit]
  have hwf1 : WF (modifyCell (baseGrid rows cols) ((0 : ℤ), (0 : ℤ))
      (fun c => setIsStartNode c true)) :=
    WF_modifyCell hwfB hbS
      (fun cc => ⟨setIsStartNode_row cc true, setIsStartNode_col cc true⟩)
  have hwf2 : WF (modifyCell
      (modifyCell (baseGrid rows cols) ((0 : ℤ), (0 : ℤ))
        (fun c => setIsStartNode c true))
      (((rows : ℤ) - 1), ((cols : ℤ) - 1)) (fun c => setIsEndNode c true)) :=
    WF_modifyCell hwf1 hbE
      (fun cc => ⟨setIsEndNode_row cc true, setIsEndNode_col cc true⟩)
  refine ⟨hwf2, ⟨hbS, hbE, hSE, ?_, ?_⟩, rfl, rfl⟩
  · intro p hp
    have hp' : inBounds (baseGrid rows cols) p := hp
    show (cellAt _ p).isStartNode = true ↔ p = ((0 : ℤ), (0 : ℤ))
    by_cases hpe : p = (((rows : ℤ) - 1), ((cols : ℤ) - 1))
    · rw [hpe, cellAt_modifyCell_self hwf1 hbE,
        cellAt_modifyCell_ne hwfB hbS hbE (Ne.symm hSE),
        hcellB _ hbE, setIsEndNode_isStartNode, mkCell_eq]
      simp only [Bool.false_eq_true, false_iff]
      intro hx
      exact hSE hx.symm
    · rw [cellAt_modifyCell_ne hwf1 hbE hp' hpe]
      by_cases hps : p = ((0 : ℤ), (0 : ℤ))
      · rw [hps, cellAt_modifyCell_self hwfB hbS, setIsStartNode_isStartNode]
        simp
      · rw [cellAt_modifyCell_ne hwfB hbS hp' hps, hcellB _ hp', mkCell_eq]
        simp only [Bool.false_eq_true, false_iff]
        exact hps
  · intro p hp
    have hp' : inBounds (baseGrid rows cols) p := hp
    show (cellAt _ p).isEndNode = true ↔ p = (((rows : ℤ) - 1), ((cols : ℤ) - 1))
    by_cases hpe : p = (((rows : ℤ) - 1), ((cols : ℤ) - 1))
    · rw [hpe, cellAt_modifyCell_self hwf1 hbE, setIsEndNode_isEndNode]
      simp
    · rw [cellAt_modifyCell_ne hwf1 hbE hp' hpe]
      by_cases hps : p = ((0 : ℤ), (0 : ℤ))
      · rw [hps, cellAt_modifyCell_self hwfB hbS, setIsStartNode_isEndNode,
          hcellB _ hbS, mkCell_eq]
        simp only [Bool.false_eq_true, false_iff]
        exact hSE
      · rw [cellAt_modifyCell_ne hwfB hbS hp' hps, hcellB _ hp', mkCell_eq]
        simp only [Bool.false_eq_true, false_iff]
        exact hpe

theorem foldl_moves_inv (moves : List FlagMove) :
    ∀ g : GridState, WF g → StartEndInv g →
    (∀ m ∈ moves, moveInBounds g.rows g.cols m) →
    WF (moves.foldl applyMove g) ∧ StartEndInv (moves.foldl applyMove g) ∧
    (moves.foldl applyMove g).rows = g.rows ∧
    (moves.foldl applyMove g).cols = g.cols := by
  induction moves with
  | nil =>
    intro g hg hinv _
    exact ⟨hg, hinv, rfl, rfl⟩
  | cons m rest ih =>
    intro g hg hinv hm
    simp only [List.foldl_cons]
    have hm0 := hm m (List.mem_cons_self m rest)
    have hrest : ∀ m' ∈ rest, moveInBounds g.rows g.cols m' :=
      fun m' hm' => hm m' (List.mem_cons_of_mem m hm')
    cases m with
    | moveStartTo r c =>
      have hb : inBounds g (r, c) := hm0
      obtain ⟨w1, w2, w3, w4⟩ := moveStart_inv hg hinv hb
      have hrest' : ∀ m' ∈ rest,
          moveInBounds (moveStart g r c).rows (moveStart g r c).cols m' := by
        rw [w3, w4]; exact hrest
      obtain ⟨u1, u2, u3, u4⟩ := ih (moveStart g r c) w1 w2 hrest'
      exact ⟨u1, u2, u3.trans w3, u4.trans w4⟩
    | moveEndTo r c =>
      have hb : inBounds g (r, c) := hm0
      obtain ⟨w1, w2, w3, w4⟩ := moveEnd_inv hg hinv hb
      have hrest' : ∀ m' ∈ rest,
          moveInBounds (moveEnd g r c).rows (moveEnd g r c).cols m' := by
        rw [w3, w4]; exact hrest
      obtain ⟨u1, u2, u3, u4⟩ := ih (moveEnd g r c) w1 w2 hrest'
      exact ⟨u1, u2, u3.trans w3, u4.trans w4⟩

/--
C9: starting from a freshly constructed grid, after any sequence of
start-drags and end-drags (with on-grid targets), exactly one cell holds the
Start role — the one `_start_node` references —, exactly one holds the End
role, and they are never the same cell (`StartEndInv`).  Moreover a drag
whose target already holds either flag (in particular the other flag) is not
performed at all, and a performed drag first clears the old cell's role,
then re-homes the reference, then sets the new cell's role.
-/
theorem C9_exclusivity (rows cols : ℕ) (h1 : 1 ≤ rows) (h2 : 1 ≤ cols)
    (hne : ¬(rows = 1 ∧ cols = 1)) (moves : List FlagMove)
    (hm : ∀ m ∈ moves, moveInBounds rows cols m) :
    StartEndInv (moves.foldl applyMove (initGrid rows cols)) ∧
    (∀ (g : GridState) (r c : ℤ), isAFlagNode g r c = true →
      moveStart g r c = g ∧ moveEnd g r c = g) ∧
    (∀ (g : GridState) (r c : ℤ), isAFlagNode g r c = false →
      moveStart g r c =
        modifyCell
          { modifyCell g g.startNode (fun cc => setIsStartNode cc false) with
              startNode := (r, c) }
          (r, c) (fun cc => setIsStartNode cc true) ∧
      moveEnd g r c =
        modifyCell
          { modifyCell g g.endNode (fun cc => setIsEndNode cc false) with
              endNode := (r, c) }
          (r, c) (fun cc => setIsEndNode cc true)) := by
  obtain ⟨hwf0, hinv0, hr0, hc0⟩ := initGrid_inv rows cols h1 h2 hne
  refine ⟨?_, ?_, ?_⟩
  · have hm' : ∀ m ∈ moves,
        moveInBounds (initGrid rows cols).rows (initGrid rows cols).cols m := by
      rw [hr0, hc0]; exact hm
    exact (foldl_moves_inv moves (initGrid rows cols) hwf0 hinv0 hm').2.1
  · intro g r c hflag
    constructor
    · unfold moveStart; rw [hflag]; rfl
    · unfold moveEnd; rw [hflag]; rfl
  · intro g r c hflag
    constructor
    · unfold moveStart; rw [hflag]; rfl
    · unfold moveEnd; rw [hflag]; rfl

/-- C9 witness: a concrete instance of the hypotheses and the conclusion. -/
theorem C9_exclusivity_witness :
    (1 ≤ 2 ∧ 1 ≤ 2 ∧ ¬(2 = 1 ∧ 2 = 1) ∧
      (∀ m ∈ [FlagMove.moveStartTo 1 0, FlagMove.moveEndTo 0 1],
        moveInBounds 2 2 m)) ∧
    (StartEndInv
      ([FlagMove.moveStartTo 1 0, FlagMove.moveEndTo 0 1].foldl applyMove
        (initGrid 2 2)) ∧
    (∀ (g : GridState) (r c : ℤ), isAFlagNode g r c = true →
      moveStart g r c = g ∧ moveEnd g r c = g) ∧
    (∀ (g : GridState) (r c : ℤ), isAFlagNode g r c = false →
      moveStart g r c =
        modifyCell
          { modifyCell g g.startNode (fun cc => setIsStartNode cc false) with
              startNode := (r, c) }
          (r, c) (fun cc => setIsStartNode cc true) ∧
      moveEnd g r c =
        modifyCell
          { modifyCell g g.endNode (fun cc => setIsEndNode cc false) with
              endNode := (r, c) }
          (r, c) (fun cc => setIsEndNode cc true))) :=
  ⟨⟨by decide, by decide, by decide, by decide⟩,
    C9_exclusivity 2 2 (by decide) (by decide) (by decide)
      [FlagMove.moveStartTo 1 0, FlagMove.moveEndTo 0 1] (by decide)⟩

/-!
## Claim C3: what `open_set.get()` removes
-/

instance : Inhabited Score := ⟨.inf⟩

/-- In a list satisfying the heap ordering property on its recorded scores,
no entry compares strictly below the entry at the root. -/
theorem heapProp_root_le {α : Type} [Inhabited α] (k : α → Score) {l : List α}
    (hp : heapProp (fun a b => ltScore (k a) (k b)) l) :
    ∀ x ∈ l, ltScore (k x) (k (l.headD default)) = false := by
  have hhead : ∀ h0 : 0 < l.length, l.headD default = l[0] := by
    intro h0
    cases l with
    | nil => simp at h0
    | cons a t => rfl
  have H : ∀ i, ∀ h : i < l.length, ltScore (k l[i]) (k (l.headD default)) = false := by
    intro i
    induction i using Nat.strong_induction_on with
    | _ i ih =>
      intro h
      match i with
      | 0 =>
        rw [hhead (by omega)]
        exact ltScore_irrefl _
      | i + 1 =>
        have hparent : (i + 1 - 1) / 2 < i + 1 := by omega
        have hparentlen : (i + 1 - 1) / 2 < l.length := by omega
        have h1 := hp (i + 1) (by omega) h
        rw [getD_of_lt _ _ _ h, getD_of_lt _ _ _ hparentlen] at h1
        have h2 := ih ((i + 1 - 1) / 2) hparent hparentlen
        rw [ltScore_eq_false_iff] at h1 h2 ⊢
        exact le_trans h2 h1
  intro x hx
  obtain ⟨i, hi, rfl⟩ := List.getElem_of_mem hx
  exact H i hi

/-- `heappop` always returns the root `heap[0]` of the backing list. -/
theorem heappop_fst {α : Type} [Inhabited α] (lt : α → α → Bool) (l : List α)
    {cur : α} {rest : List α} (h : heappop lt l = some (cur, rest)) :
    cur = l.headD default := by
  match l with
  | [] => simp [heappop] at h
  | [a] =>
    simp [heappop, List.dropLast] at h
    rw [← h.1]
    rfl
  | a :: b :: t =>
    unfold heappop at h
    simp only [List.isEmpty_cons, Bool.false_eq_true, if_false] at h
    have hdl : (a :: b :: t).dropLast = a :: (b :: t).dropLast := rfl
    rw [hdl] at h
    simp only [List.isEmpty_cons, Bool.false_eq_true, if_false] at h
    rw [← (Prod.mk.injEq _ _ _ _).mp (Option.some.injEq _ _ ▸ h :)|>.1]
    rfl

/-- What the amended claim C3 asserts of one recorded pop. -/
def PopSpec (ev : PopEvent) : Prop :=
  ev.openBefore ≠ [] ∧
  ev.popped = (ev.openBefore.headD default).1 ∧
  ev.poppedF = (ev.openBefore.headD default).2 ∧
  (heapProp (fun a b => ltScore a.2 b.2) ev.openBefore →
    ∀ x ∈ ev.openBefore, ltScore x.2 ev.poppedF = false)

theorem processNeighbor_pops (currentNode : ℤ × ℤ) (ls : LoopState)
    (neighbor : ℤ × ℤ) :
    (processNeighbor currentNode ls neighbor).pops = ls.pops := by
  simp only [processNeighbor]
  split <;> rfl

theorem foldl_processNeighbor_pops (currentNode : ℤ × ℤ) (ns : List (ℤ × ℤ)) :
    ∀ ls : LoopState,
      (ns.foldl (processNeighbor currentNode) ls).pops = ls.pops := by
  induction ns with
  | nil => intro ls; rfl
  | cons n t ih =>
    intro ls
    rw [List.foldl_cons, ih, processNeighbor_pops]

theorem expandNeighbors_pops (ls : LoopState) (currentNode : ℤ × ℤ) :
    (expandNeighbors ls currentNode).pops = ls.pops :=
  foldl_processNeighbor_pops currentNode _ ls

/-- The freshly recorded pop event satisfies the amended claim: the popped
entry is the head (root) of the recorded open list. -/
theorem popEvent_spec (ls : LoopState) {currentNode : ℤ × ℤ}
    {opn1 : List (ℤ × ℤ)}
    (hpop : heappop (keyLt ls.st) ls.opn = some (currentNode, opn1)) :
    PopSpec (popEvent ls currentNode) := by
  have hcur : currentNode = ls.opn.headD default := heappop_fst _ _ hpop
  have hnil : ls.opn ≠ [] := by
    intro h
    rw [h] at hpop
    simp [heappop] at hpop
  obtain ⟨a, t, hop⟩ : ∃ a t, ls.opn = a :: t := by
    cases hopq : ls.opn with
    | nil => exact absurd hopq hnil
    | cons a t => exact ⟨a, t, rfl⟩
  have hcur' : currentNode = a := by rw [hcur, hop]; rfl
  have hpe : popEvent ls currentNode =
      ⟨currentNode, (cellAt ls.st currentNode).fScore,
        (a :: t).map (fun p => (p, (cellAt ls.st p).fScore))⟩ := by
    unfold popEvent
    rw [hop]
  rw [hpe]
  refine ⟨by simp, ?_, ?_, ?_⟩
  · simp only [List.map_cons, List.headD_cons]
    exact hcur'
  · simp only [List.map_cons, List.headD_cons]
    rw [hcur']
  · intro hp x hx
    have h := heapProp_root_le Prod.snd hp x hx
    simp only [List.map_cons, List.headD_cons] at h ⊢
    rw [hcur']
    exact h

theorem foundReturn_pops (ls1 : LoopState) (currentNode : ℤ × ℤ) :
    (foundReturn ls1 currentNode).2.pops = ls1.pops := rfl

theorem postPop_pops (ls : LoopState) (currentNode : ℤ × ℤ)
    (opn1 : List (ℤ × ℤ)) :
    (postPop ls currentNode opn1).pops = ls.pops ++ [popEvent ls currentNode] := rfl

theorem searchLoop_pops : ∀ (fuel : ℕ) (ls : LoopState),
    (∀ ev ∈ ls.pops, PopSpec ev) →
    ∀ out, searchLoop fuel ls = some out → ∀ ev ∈ out.2.pops, PopSpec ev := by
  intro fuel
  induction fuel with
  | zero =>
    intro ls hls out hout
    unfold searchLoop at hout
    by_cases he : ls.opn.isEmpty
    · rw [if_pos he] at hout
      cases hout
      exact hls
    · rw [if_neg he] at hout
      cases hout
  | succ fuel ih =>
    intro ls hls out hout
    unfold searchLoop at hout
    by_cases he : ls.opn.isEmpty
    · rw [if_pos he] at hout
      cases hout
      exact hls
    · rw [if_neg he] at hout
      split at hout
      · cases hout
        exact hls
      · next currentNode opn1 hpop =>
        have hnew : ∀ ev ∈ (postPop ls currentNode opn1).pops, PopSpec ev := by
          intro ev hev
          rw [postPop_pops] at hev
          rcases List.mem_append.mp hev with h | h
          · exact hls ev h
          · rw [List.mem_singleton.mp h]
            exact popEvent_spec ls hpop
        split at hout
        · cases hout
          rw [foundReturn_pops]
          exact hnew
        · refine ih (expandNeighbors (postPop ls currentNode opn1) currentNode) ?_ out hout
          rw [expandNeighbors_pops]
          exact hnew

/--
C3 (amended): in every iteration of the expansion loop, the cell removed by
`open_set.get()` is the root of the `heapq` binary heap (the head of
`open_set.queue`); whenever the open list satisfies the heap ordering
property on the `f_score`s it holds at that moment, that root has a minimal
`f_score` among all open cells.  (The property can be broken by the in-place
`f_score` decreases `_is_optimal_neighbor` performs on cells already in the
open set — see the counterexample —, and ties are resolved by heap layout,
not by insertion order.)
-/
theorem C3_amended (g : GridState) (out : PathResult × LoopState)
    (hout : findOptimalPath g = some out) : ∀ ev ∈ out.2.pops, PopSpec ev := by
  unfold findOptimalPath at hout
  exact searchLoop_pops _ _ (by intro ev hev; cases hev) out hout

/-- What claim C3 asserts of a search run: every pop removes a cell with
minimal current `f_score`, and among open cells tied at that `f_score` the
earliest-inserted one. -/
def ClaimC3 (out : PathResult × LoopState) : Prop :=
  ∀ ev ∈ out.2.pops,
    (∀ x ∈ ev.openBefore, ltScore x.2 ev.poppedF = false) ∧
    (∀ x ∈ ev.openBefore, x.2 = ev.poppedF →
      out.2.pushes.indexOf ev.popped ≤ out.2.pushes.indexOf x.1)

instance (out : PathResult × LoopState) : Decidable (ClaimC3 out) := by
  unfold ClaimC3
  infer_instance

/--
C3 counterexample: on the 4×4 grid with blocks at `(1,1)`, `(2,2)`, `(2,3)`
and `(3,2)` (the walled-off-end scenario), the run violates both parts of
the claim: at the fifth pop the removed cell `(1,3)` has `f_score = 5` while
`(2,1)` sits in the open set with `f_score = 3 + √2 < 5` (its `f_score` was
lowered in place after it was pushed, which `heapq` never re-examines), and
at the eighth pop the removed cell `(2,0)` is tied at `f_score = 4 + √2`
with `(0,2)`, which was inserted earlier.
-/
theorem C3_counterexample :
    ¬ ClaimC3
      ((findOptimalPath
        ([((1 : ℤ), (1 : ℤ)), (2, 2), (2, 3), (3, 2)].foldl
          (fun g p => createBlock g p.1 p.2) (initGrid 4 4))).getD
        (.exhausted, ⟨initGrid 4 4, [], [], [], []⟩)) := by
  decide

/-- C3 witness: a concrete instance of the hypotheses and the conclusion of
the amended theorem, on the fresh 2×2 grid. -/
theorem C3_amended_witness :
    (findOptimalPath (initGrid 2 2) =
      some ((findOptimalPath (initGrid 2 2)).getD
        (.exhausted, ⟨initGrid 2 2, [], [], [], []⟩))) ∧
    (∀ ev ∈ ((findOptimalPath (initGrid 2 2)).getD
        (.exhausted, ⟨initGrid 2 2, [], [], [], []⟩)).2.pops, PopSpec ev) :=
  ⟨by decide,
    C3_amended (initGrid 2 2) _ (by decide)⟩

/-!
## Claim C4: neighbor relaxation
-/

/-- What claim C4 asserts of one pass of the neighbor loop. -/
def RelaxSpec (ls : LoopState) (currentNode neighbor : ℤ × ℤ) : Prop :=
  (neighbor ∈ ls.closed → processNeighbor currentNode ls neighbor = ls) ∧
  (neighbor ∉ ls.closed →
    (ltScore (addScore (cellAt ls.st currentNode).gScore (.fin 1 0))
        (cellAt ls.st neighbor).gScore = true ∨ neighbor ∉ ls.opn) →
    ((cellAt (processNeighbor currentNode ls neighbor).st neighbor).lastNode =
        some currentNode ∧
     (cellAt (processNeighbor currentNode ls neighbor).st neighbor).gScore =
        addScore (cellAt ls.st currentNode).gScore (.fin 1 0) ∧
     (cellAt (processNeighbor currentNode ls neighbor).st neighbor).fScore =
        addScore (addScore (cellAt ls.st currentNode).gScore (.fin 1 0))
          (computeDiagonalDistance ls.st (cellAt ls.st neighbor)) ∧
     (∀ q, inBounds ls.st q → q ≠ neighbor →
        cellAt (processNeighbor currentNode ls neighbor).st q = cellAt ls.st q) ∧
     (processNeighbor currentNode ls neighbor).opn =
        (if neighbor ∈ ls.opn then ls.opn
         else heappush
           (keyLt (isOptimalNeighbor ls.st neighbor currentNode ls.opn ls.closed).2)
           ls.opn neighbor) ∧
     (processNeighbor currentNode ls neighbor).closed = ls.closed)) ∧
  (neighbor ∉ ls.closed →
    ¬(ltScore (addScore (cellAt ls.st currentNode).gScore (.fin 1 0))
        (cellAt ls.st neighbor).gScore = true ∨ neighbor ∉ ls.opn) →
    processNeighbor currentNode ls neighbor = ls)

/--
C4: for each neighbor processed during an expansion, with
`tentative_g = current.g_score + 1` (a uniform step cost of `1` for
orthogonal and diagonal moves alike): a neighbor already in the closed set is
left completely untouched; otherwise, when it is not in the open set or
`tentative_g < neighbor.g_score`, its `last_node` becomes the current cell,
its `g_score` becomes `tentative_g`, its `f_score` becomes
`g_score + heuristic(neighbor)`, all other cells are untouched, the closed
set is unchanged, and it is `put` into the open set exactly when it was not
already a member; and when neither branch applies nothing changes at all.
-/
theorem C4_relaxation (ls : LoopState) (currentNode neighbor : ℤ × ℤ)
    (hg : WF ls.st) (hnb : inBounds ls.st neighbor) :
    RelaxSpec ls currentNode neighbor := by
  refine ⟨?_, ?_, ?_⟩
  · intro hclosed
    have hcond : (!decide (neighbor ∈ ls.closed) &&
        (ltScore (addScore (cellAt ls.st currentNode).gScore (.fin 1 0))
          (cellAt ls.st neighbor).gScore ||
         !decide (neighbor ∈ ls.opn))) = false := by
      simp [hclosed]
    have hio' : isOptimalNeighbor ls.st neighbor currentNode ls.opn ls.closed =
        (false, ls.st) := by
      unfold isOptimalNeighbor
      rw [if_neg]
      rw [hcond]
      simp
    simp only [processNeighbor, hio']
    rfl
  · intro hclosed hcond
    have hcond' : (!decide (neighbor ∈ ls.closed) &&
        (ltScore (addScore (cellAt ls.st currentNode).gScore (.fin 1 0))
          (cellAt ls.st neighbor).gScore ||
         !decide (neighbor ∈ ls.opn))) = true := by
      rcases hcond with h | h <;> simp [hclosed, h]
    have hio' : isOptimalNeighbor ls.st neighbor currentNode ls.opn ls.closed =
        (true, modifyCell ls.st neighbor (fun c =>
          { c with lastNode := some currentNode,
                   gScore := addScore (cellAt ls.st currentNode).gScore (.fin 1 0),
                   fScore := addScore
                     (addScore (cellAt ls.st currentNode).gScore (.fin 1 0))
                     (computeDiagonalDistance ls.st c) })) := by
      unfold isOptimalNeighbor
      rw [if_pos]
      exact hcond'
    have hwf1 : WF (isOptimalNeighbor ls.st neighbor currentNode ls.opn ls.closed).2 := by
      rw [hio']
      exact WF_modifyCell hg hnb (fun c => ⟨rfl, rfl⟩)
    have hb1 : inBounds (isOptimalNeighbor ls.st neighbor currentNode ls.opn ls.closed).2 neighbor := by
      rw [hio']
      exact hnb
    have hbq : ∀ q, inBounds ls.st q →
        inBounds (isOptimalNeighbor ls.st neighbor currentNode ls.opn ls.closed).2 q := by
      intro q hq
      rw [hio']
      exact hq
    have hcell1 : cellAt (isOptimalNeighbor ls.st neighbor currentNode ls.opn ls.closed).2 neighbor =
        { cellAt ls.st neighbor with
            lastNode := some currentNode,
            gScore := addScore (cellAt ls.st currentNode).gScore (.fin 1 0),
            fScore := addScore
              (addScore (cellAt ls.st currentNode).gScore (.fin 1 0))
              (computeDiagonalDistance ls.st (cellAt ls.st neighbor)) } := by
      rw [hio']
      exact cellAt_modifyCell_self hg hnb _
    have hcell1ne : ∀ q, inBounds ls.st q → q ≠ neighbor →
        cellAt (isOptimalNeighbor ls.st neighbor currentNode ls.opn ls.closed).2 q =
          cellAt ls.st q := by
      intro q hq hqne
      rw [hio']
      exact cellAt_modifyCell_ne hg hnb hq hqne _
    by_cases hmem : neighbor ∈ ls.opn
    · have hpn : processNeighbor currentNode ls neighbor =
          { ls with st := (isOptimalNeighbor ls.st neighbor currentNode ls.opn ls.closed).2 } := by
        simp only [processNeighbor]
        rw [if_neg]
        simp [hio', hmem]
      rw [hpn]
      refine ⟨?_, ?_, ?_, ?_, ?_, rfl⟩
      · show (cellAt (isOptimalNeighbor ls.st neighbor currentNode ls.opn ls.closed).2 neighbor).lastNode = _
        rw [hcell1]
      · show (cellAt (isOptimalNeighbor ls.st neighbor currentNode ls.opn ls.closed).2 neighbor).gScore = _
        rw [hcell1]
      · show (cellAt (isOptimalNeighbor ls.st neighbor currentNode ls.opn ls.closed).2 neighbor).fScore = _
        rw [hcell1]
      · intro q hq hqne
        exact hcell1ne q hq hqne
      · show ls.opn = _
        rw [if_pos hmem]
    · have hpn : processNeighbor currentNode ls neighbor =
          { ls with
              st := modifyCell (isOptimalNeighbor ls.st neighbor currentNode ls.opn ls.closed).2
                neighbor (fun c => { c with color := purple }),
              opn := heappush
                (keyLt (isOptimalNeighbor ls.st neighbor currentNode ls.opn ls.closed).2)
                ls.opn neighbor,
              pushes := ls.pushes ++ [neighbor] } := by
        simp only [processNeighbor]
        rw [if_pos]
        simp [hio', hmem]
      rw [hpn]
      have hcell2 : cellAt (modifyCell (isOptimalNeighbor ls.st neighbor currentNode ls.opn ls.closed).2
          neighbor (fun c => { c with color := purple })) neighbor =
          { cellAt (isOptimalNeighbor ls.st neighbor currentNode ls.opn ls.closed).2 neighbor with
              color := purple } :=
        cellAt_modifyCell_self hwf1 hb1 _
      refine ⟨?_, ?_, ?_, ?_, ?_, rfl⟩
      · show (cellAt _ neighbor).lastNode = _
        rw [hcell2, hcell1]
      · show (cellAt _ neighbor).gScore = _
        rw [hcell2, hcell1]
      · show (cellAt _ neighbor).fScore = _
        rw [hcell2, hcell1]
      · intro q hq hqne
        show cellAt (modifyCell _ neighbor _) q = _
        rw [cellAt_modifyCell_ne hwf1 hb1 (hbq q hq) hqne _]
        exact hcell1ne q hq hqne
      · show heappush _ ls.opn neighbor = _
        rw [if_neg hmem]
  · intro hclosed hcond
    have hcond' : (!decide (neighbor ∈ ls.closed) &&
        (ltScore (addScore (cellAt ls.st currentNode).gScore (.fin 1 0))
          (cellAt ls.st neighbor).gScore ||
         !decide (neighbor ∈ ls.opn))) = false := by
      push_neg at hcond
      simp [hcond.1, (by simpa using hcond.2 : neighbor ∈ ls.opn)]
    have hio' : isOptimalNeighbor ls.st neighbor currentNode ls.opn ls.closed =
        (false, ls.st) := by
      unfold isOptimalNeighbor
      rw [if_neg]
      rw [hcond']
      simp
    simp only [processNeighbor, hio']
    rfl

/-- C4 witness: a concrete instance of the hypotheses and the conclusion. -/
theorem C4_relaxation_witness :
    WF (initGrid 2 2) ∧ inBounds (initGrid 2 2) (0, 1) ∧
    RelaxSpec ⟨initGrid 2 2, [((0 : ℤ), (0 : ℤ))], [], [], []⟩ (0, 0) (0, 1) :=
  ⟨by decide, by decide,
    C4_relaxation ⟨initGrid 2 2, [((0 : ℤ), (0 : ℤ))], [], [], []⟩ (0, 0) (0, 1)
      (by decide) (by decide)⟩

/-!
## The heap functions permute their contents

`heappush` adds exactly its item, `heappop` removes exactly the root; this
underlies the `rows * cols` iteration bound (claim C8).
-/

theorem multiset_set {α : Type} [Inhabited α] (l : List α) (i : ℕ) (x : α)
    (h : i < l.length) :
    l.getD i default ::ₘ (↑(l.set i x) : Multiset α) = x ::ₘ (↑l : Multiset α) := by
  induction l generalizing i with
  | nil => simp at h
  | cons a t ih =>
    cases i with
    | zero =>
      simp only [List.getD_cons_zero, List.set_cons_zero, ← Multiset.cons_coe]
      exact Multiset.cons_swap a x ↑t
    | succ i =>
      have ht : i < t.length := by simpa using h
      simp only [List.getD_cons_succ, List.set_cons_succ, ← Multiset.cons_coe]
      rw [Multiset.cons_swap, ih i ht, Multiset.cons_swap]

theorem multiset_set_set {α : Type} [Inhabited α] (l : List α) (i j : ℕ) (x : α)
    (hi : i < l.length) (hj : j < l.length) (hij : j ≠ i) :
    (↑((l.set i (l.getD j default)).set j x) : Multiset α) =
      (↑(l.set i x) : Multiset α) := by
  have hAj : (l.set i (l.getD j default)).getD j default = l.getD j default := by
    rw [List.getD_eq_getElem?_getD, List.getElem?_set_ne (fun hh => hij hh.symm),
      ← List.getD_eq_getElem?_getD]
  have M1 := multiset_set (l.set i (l.getD j default)) j x
    (by rw [List.length_set]; exact hj)
  rw [hAj] at M1
  have M2 := multiset_set l i (l.getD j default) hi
  have M3 := multiset_set l i x hi
  have key : l.getD i default ::ₘ l.getD j default ::ₘ
      (↑((l.set i (l.getD j default)).set j x) : Multiset α) =
      l.getD i default ::ₘ l.getD j default ::ₘ (↑(l.set i x) : Multiset α) := by
    calc l.getD i default ::ₘ l.getD j default ::ₘ
        (↑((l.set i (l.getD j default)).set j x) : Multiset α)
        = l.getD i default ::ₘ (x ::ₘ ↑(l.set i (l.getD j default))) := by rw [M1]
      _ = x ::ₘ (l.getD i default ::ₘ ↑(l.set i (l.getD j default))) :=
          Multiset.cons_swap _ _ _
      _ = x ::ₘ (l.getD j default ::ₘ (↑l : Multiset α)) := by rw [M2]
      _ = l.getD j default ::ₘ (x ::ₘ (↑l : Multiset α)) := Multiset.cons_swap _ _ _
      _ = l.getD j default ::ₘ (l.getD i default ::ₘ ↑(l.set i x)) := by rw [M3]
      _ = l.getD i default ::ₘ l.getD j default ::ₘ (↑(l.set i x) : Multiset α) :=
          Multiset.cons_swap _ _ _
  exact (Multiset.cons_inj_right _).mp ((Multiset.cons_inj_right _).mp key)

theorem multiset_siftdownGo {α : Type} [Inhabited α] (lt : α → α → Bool) :
    ∀ (fuel : ℕ) (heap : List α) (startpos pos : ℕ) (item : α),
    pos < heap.length →
    (↑(siftdownGo lt fuel heap startpos pos item) : Multiset α) =
      ↑(heap.set pos item) := by
  intro fuel
  induction fuel with
  | zero => intro heap startpos pos item _; rfl
  | succ fuel ih =>
    intro heap startpos pos item hpos
    unfold siftdownGo
    by_cases h1 : startpos < pos
    · rw [if_pos h1]
      by_cases h2 : lt item (heap.getD ((pos - 1) / 2) default) = true
      · rw [if_pos h2]
        have hpp : (pos - 1) / 2 < pos := by omega
        have hpp' : (pos - 1) / 2 < (heap.set pos (heap.getD ((pos - 1) / 2) default)).length := by
          rw [List.length_set]; omega
        rw [ih _ startpos _ item hpp']
        exact multiset_set_set heap pos ((pos - 1) / 2) item hpos (by omega)
          (by omega)
      · rw [if_neg h2]
    · rw [if_neg h1]

theorem multiset_siftdown {α : Type} [Inhabited α] (lt : α → α → Bool)
    (heap : List α) (startpos pos : ℕ) (item : α) (hpos : pos < heap.length) :
    (↑(siftdown lt heap startpos pos item) : Multiset α) = ↑(heap.set pos item) :=
  multiset_siftdownGo lt pos heap startpos pos item hpos

theorem multiset_siftupGo {α : Type} [Inhabited α] (lt : α → α → Bool) :
    ∀ (fuel : ℕ) (heap : List α) (startpos pos : ℕ) (item : α),
    pos < heap.length →
    (↑(siftupGo lt fuel heap startpos pos item) : Multiset α) =
      ↑(heap.set pos item) := by
  intro fuel
  induction fuel with
  | zero =>
    intro heap startpos pos item hpos
    exact multiset_siftdown lt heap startpos pos item hpos
  | succ fuel ih =>
    intro heap startpos pos item hpos
    unfold siftupGo
    by_cases h1 : 2 * pos + 1 < heap.length
    · rw [if_pos h1]
      by_cases h2 : (2 * pos + 1 + 1 < heap.length &&
          !(lt (heap.getD (2 * pos + 1) default)
            (heap.getD (2 * pos + 1 + 1) default))) = true
      · rw [if_pos h2]
        have hc : 2 * pos + 1 + 1 < heap.length := by
          rcases Bool.and_eq_true_iff.mp h2 with ⟨hh, _⟩
          simpa using hh
        have hc' : 2 * pos + 1 + 1 <
            (heap.set pos (heap.getD (2 * pos + 1 + 1) default)).length := by
          rw [List.length_set]; exact hc
        rw [ih _ startpos _ item hc']
        exact multiset_set_set heap pos (2 * pos + 1 + 1) item hpos hc (by omega)
      · rw [if_neg h2]
        have hc' : 2 * pos + 1 <
            (heap.set pos (heap.getD (2 * pos + 1) default)).length := by
          rw [List.length_set]; exact h1
        rw [ih _ startpos _ item hc']
        exact multiset_set_set heap pos (2 * pos + 1) item hpos h1 (by omega)
    · rw [if_neg h1]
      exact multiset_siftdown lt heap startpos pos item hpos

theorem multiset_heappush {α : Type} [Inhabited α] (lt : α → α → Bool)
    (heap : List α) (item : α) :
    (↑(heappush lt heap item) : Multiset α) = item ::ₘ ↑heap := by
  unfold heappush
  have hlen : heap.length < (heap ++ [item]).length := by simp
  rw [multiset_siftdown lt (heap ++ [item]) 0 heap.length item hlen]
  have hgetD : (heap ++ [item]).getD heap.length default = item := by
    rw [List.getD_eq_getElem?_getD, List.getElem?_append_right (le_refl _)]
    simp
  have h2 := multiset_set (heap ++ [item]) heap.length item hlen
  rw [hgetD] at h2
  have h3 : (↑((heap ++ [item]).set heap.length item) : Multiset α) =
      ↑(heap ++ [item]) := (Multiset.cons_inj_right _).mp h2
  rw [h3]
  have h4 : (↑(heap ++ [item]) : Multiset α) = ↑heap + {item} := by
    rw [← Multiset.coe_singleton, ← Multiset.coe_add]
  rw [h4, add_comm, Multiset.singleton_add]

theorem multiset_heappop {α : Type} [Inhabited α] (lt : α → α → Bool)
    (l : List α) {cur : α} {rest : List α}
    (h : heappop lt l = some (cur, rest)) :
    (↑l : Multiset α) = cur ::ₘ ↑rest := by
  match l with
  | [] => simp [heappop] at h
  | [a] =>
    simp [heappop, List.dropLast] at h
    obtain ⟨h1, h2⟩ := h
    rw [← h1, ← h2]
    rfl
  | a :: b :: t =>
    unfold heappop at h
    simp only [List.isEmpty_cons, Bool.false_eq_true, if_false] at h
    have hdl : (a :: b :: t).dropLast = a :: (b :: t).dropLast := rfl
    rw [hdl] at h
    simp only [List.isEmpty_cons, Bool.false_eq_true, if_false,
      Option.some.injEq, Prod.mk.injEq] at h
    obtain ⟨hcur, hrest⟩ := h
    have hlast : (a :: b :: t).getLastD default = (a :: b :: t).getLast (by simp) := by
      rw [List.getLastD_eq_getLast?, List.getLast?_eq_getLast _ (by simp)]
      rfl
    have hsplit : a :: b :: t =
        (a :: (b :: t).dropLast) ++ [(a :: b :: t).getLast (by simp)] := by
      rw [← hdl]
      exact (List.dropLast_append_getLast (by simp)).symm
    have hpos : 0 < (a :: (b :: t).dropLast).length := by simp
    have hms : (↑(siftup lt (a :: (b :: t).dropLast) 0
        ((a :: b :: t).getLastD default)) : Multiset α) =
        ↑((a :: (b :: t).dropLast).set 0 ((a :: b :: t).getLastD default)) :=
      multiset_siftupGo lt _ _ 0 0 _ hpos
    have hset := multiset_set (a :: (b :: t).dropLast) 0
      ((a :: b :: t).getLastD default) hpos
    have hhead : (a :: (b :: t).dropLast).getD 0 default = a := rfl
    rw [hhead] at hset
    have hcura : cur = a := by rw [← hcur]; rfl
    have hfinal : (↑(a :: b :: t) : Multiset α) =
        (↑(a :: (b :: t).dropLast) : Multiset α) +
          {(a :: b :: t).getLastD default} := by
      conv_lhs => rw [hsplit]
      rw [hlast, ← Multiset.coe_singleton, ← Multiset.coe_add]
    rw [hcura, ← hrest, hms, hset, hfinal, add_comm, Multiset.singleton_add]

/-!
## The search invariant (claims C7 and C8)
-/

theorem heappop_perm {α : Type} [Inhabited α] (lt : α → α → Bool)
    (l : List α) {cur : α} {rest : List α}
    (h : heappop lt l = some (cur, rest)) : l.Perm (cur :: rest) := by
  rw [← Multiset.coe_eq_coe, ← Multiset.cons_coe]
  exact multiset_heappop lt l h

theorem heappush_perm {α : Type} [Inhabited α] (lt : α → α → Bool)
    (heap : List α) (item : α) : (heappush lt heap item).Perm (item :: heap) := by
  rw [← Multiset.coe_eq_coe, ← Multiset.cons_coe]
  exact multiset_heappush lt heap item

/-- The relaxation `_is_optimal_neighbor` performs when its condition holds. -/
def relaxedState (st : GridState) (cur nb : ℤ × ℤ) : GridState :=
  modifyCell st nb (fun c =>
    { c with lastNode := some cur,
             gScore := addScore (cellAt st cur).gScore (.fin 1 0),
             fScore := addScore (addScore (cellAt st cur).gScore (.fin 1 0))
               (computeDiagonalDistance st c) })

/-- The three ways one pass of the neighbor loop can go: nothing happens; the
neighbor (already open) is relaxed in place; the neighbor is relaxed,
repainted purple and pushed. -/
theorem processNeighbor_char (cur : ℤ × ℤ) (ls : LoopState) (nb : ℤ × ℤ) :
    processNeighbor cur ls nb = ls ∨
    (nb ∉ ls.closed ∧
      ((nb ∈ ls.opn ∧
        processNeighbor cur ls nb = { ls with st := relaxedState ls.st cur nb }) ∨
       (nb ∉ ls.opn ∧
        processNeighbor cur ls nb =
          { ls with
              st := modifyCell (relaxedState ls.st cur nb) nb
                      (fun c => { c with color := purple }),
              opn := heappush (keyLt (relaxedState ls.st cur nb)) ls.opn nb,
              pushes := ls.pushes ++ [nb] }))) := by
  by_cases hcond : (!decide (nb ∈ ls.closed) &&
      (ltScore (addScore (cellAt ls.st cur).gScore (.fin 1 0))
        (cellAt ls.st nb).gScore ||
       !decide (nb ∈ ls.opn))) = true
  · have hclosed : nb ∉ ls.closed := by
      rcases Bool.and_eq_true_iff.mp hcond with ⟨h1, _⟩
      simpa using h1
    have hio' : isOptimalNeighbor ls.st nb cur ls.opn ls.closed =
        (true, relaxedState ls.st cur nb) := by
      unfold isOptimalNeighbor relaxedState
      rw [if_pos hcond]
    by_cases hmem : nb ∈ ls.opn
    · refine Or.inr ⟨hclosed, Or.inl ⟨hmem, ?_⟩⟩
      simp only [processNeighbor, hio']
      rw [if_neg]
      simp [hmem]
    · refine Or.inr ⟨hclosed, Or.inr ⟨hmem, ?_⟩⟩
      simp only [processNeighbor, hio']
      rw [if_pos]
      simp [hmem]
  · left
    have hio' : isOptimalNeighbor ls.st nb cur ls.opn ls.closed = (false, ls.st) := by
      unfold isOptimalNeighbor
      rw [Bool.not_eq_true] at hcond
      rw [if_neg]
      rw [hcond]
      simp
    simp only [processNeighbor, hio']
    rfl

/-- The dimensions, flag references and grid shape are stable across every
state update the loop performs (they all go through `modifyCell`). -/
theorem relaxedState_rows (st : GridState) (cur nb : ℤ × ℤ) :
    (relaxedState st cur nb).rows = st.rows := rfl

theorem relaxedState_cols (st : GridState) (cur nb : ℤ × ℤ) :
    (relaxedState st cur nb).cols = st.cols := rfl

theorem inBounds_of_dims {st st' : GridState} (h1 : st'.rows = st.rows)
    (h2 : st'.cols = st.cols) {p : ℤ × ℤ} (hp : inBounds st p) :
    inBounds st' p := by
  obtain ⟨a1, a2, a3, a4⟩ := hp
  exact ⟨a1, h1 ▸ a2, a3, h2 ▸ a4⟩

/-- Only the colour of the two cells changes between `st` and a state
obtained by a colour-only modification; the search bookkeeping fields are
untouched, on every cell. -/
theorem cellAt_colorModify {st : GridState} (hg : WF st) {p : ℤ × ℤ}
    (hp : inBounds st p) (f : CellData → CellData)
    (hf : ∀ c, (f c).lastNode = c.lastNode ∧ (f c).gScore = c.gScore ∧
      (f c).fScore = c.fScore ∧ (f c).row = c.row ∧ (f c).col = c.col ∧
      (f c).isStartNode = c.isStartNode ∧ (f c).isEndNode = c.isEndNode ∧
      (f c).walkable = c.walkable) :
    ∀ q, inBounds st q →
      (cellAt (modifyCell st p f) q).lastNode = (cellAt st q).lastNode ∧
      (cellAt (modifyCell st p f) q).gScore = (cellAt st q).gScore ∧
      (cellAt (modifyCell st p f) q).fScore = (cellAt st q).fScore ∧
      (cellAt (modifyCell st p f) q).isStartNode = (cellAt st q).isStartNode ∧
      (cellAt (modifyCell st p f) q).isEndNode = (cellAt st q).isEndNode := by
  intro q hq
  by_cases hqp : q = p
  · rw [hqp, cellAt_modifyCell_self hg hp]
    obtain ⟨h1, h2, h3, _, _, h6, h7, _⟩ := hf (cellAt st p)
    exact ⟨h1, h2, h3, h6, h7⟩
  · rw [cellAt_modifyCell_ne hg hp hq hqp]
    exact ⟨rfl, rfl, rfl, rfl, rfl⟩

/-- The invariant carried around the search loop.  `R`, `C` are the grid
dimensions; `start` and `fin` the flag references of the searched grid. -/
structure SearchInv (R C : ℕ) (start fin : ℤ × ℤ) (ls : LoopState) : Prop where
  wf : WF ls.st
  rows_eq : ls.st.rows = R
  cols_eq : ls.st.cols = C
  start_eq : ls.st.startNode = start
  end_eq : ls.st.endNode = fin
  opn_nodup : ls.opn.Nodup
  opn_mem : ∀ p ∈ ls.opn, inBounds ls.st p ∧ p ∉ ls.closed
  closed_nodup : ls.closed.Nodup
  closed_mem : ∀ p ∈ ls.closed, inBounds ls.st p
  pushes_nodup : ls.pushes.Nodup
  opn_pushes : ∀ p ∈ ls.opn, p ∈ ls.pushes
  closed_pushes : ∀ p ∈ ls.closed, p ∈ ls.pushes
  pushes_split : ∀ p ∈ ls.pushes, p ∈ ls.opn ∨ p ∈ ls.closed
  phase : start ∈ ls.closed ∨ (ls.opn = [start] ∧ ls.closed = [])
  start_bounds : inBounds ls.st start
  start_pred : (cellAt ls.st start).lastNode = none
  start_g : (cellAt ls.st start).gScore = .fin 0 0
  pred_ok : ∀ p, inBounds ls.st p → ∀ q, (cellAt ls.st p).lastNode = some q →
    q ∈ ls.closed ∧ inBounds ls.st q ∧
    ∃ n : ℕ, (cellAt ls.st q).gScore = .fin (n : ℤ) 0 ∧
      (cellAt ls.st p).gScore = .fin ((n : ℤ) + 1) 0
  closed_pred : ∀ p ∈ ls.closed, p ≠ start → (cellAt ls.st p).lastNode ≠ none
  opn_pred : ∀ p ∈ ls.opn, p ≠ start → (cellAt ls.st p).lastNode ≠ none
  opn_g : ∀ p ∈ ls.opn, ∃ n : ℕ, (cellAt ls.st p).gScore = .fin (n : ℤ) 0
  closed_g : ∀ p ∈ ls.closed, ∃ n : ℕ, (cellAt ls.st p).gScore = .fin (n : ℤ) 0
  closed_g_lt : ∀ p ∈ ls.closed, ∀ n : ℕ,
    (cellAt ls.st p).gScore = .fin (n : ℤ) 0 → n < ls.closed.length
  opn_g_le : ∀ p ∈ ls.opn, ∀ n : ℕ,
    (cellAt ls.st p).gScore = .fin (n : ℤ) 0 → n ≤ ls.closed.length

theorem addScore_fin_one (n : ℤ) :
    addScore (.fin n 0) (.fin 1 0) = .fin (n + 1) 0 := by
  simp [addScore]

theorem relaxedState_startNode (st : GridState) (cur nb : ℤ × ℤ) :
    (relaxedState st cur nb).startNode = st.startNode := rfl

theorem relaxedState_endNode (st : GridState) (cur nb : ℤ × ℤ) :
    (relaxedState st cur nb).endNode = st.endNode := rfl

theorem WF_relaxedState {st : GridState} (hg : WF st) (cur : ℤ × ℤ)
    {nb : ℤ × ℤ} (hnb : inBounds st nb) : WF (relaxedState st cur nb) :=
  WF_modifyCell hg hnb (fun _ => ⟨rfl, rfl⟩)

theorem cellAt_relaxedState_self {st : GridState} (hg : WF st) (cur : ℤ × ℤ)
    {nb : ℤ × ℤ} (hnb : inBounds st nb) :
    (cellAt (relaxedState st cur nb) nb).lastNode = some cur ∧
    (cellAt (relaxedState st cur nb) nb).gScore =
      addScore (cellAt st cur).gScore (.fin 1 0) := by
  unfold relaxedState
  rw [cellAt_modifyCell_self hg hnb]
  exact ⟨rfl, rfl⟩

theorem cellAt_relaxedState_ne {st : GridState} (hg : WF st) (cur : ℤ × ℤ)
    {nb q : ℤ × ℤ} (hnb : inBounds st nb) (hq : inBounds st q) (hne : q ≠ nb) :
    cellAt (relaxedState st cur nb) q = cellAt st q :=
  cellAt_modifyCell_ne hg hnb hq hne _

/-- After a relaxation of `nb` (possibly followed by colour-only repaints),
all the predecessor/`g_score` bookkeeping the invariant tracks still holds.
`st'` is any state that agrees with `relaxedState` on the fields that
matter. -/
theorem relax_pred_facts {R C : ℕ} {start fin : ℤ × ℤ} {ls : LoopState}
    (hinv : SearchInv R C start fin ls) {cur nb : ℤ × ℤ}
    (hcur : cur ∈ ls.closed) (hstart : start ∈ ls.closed)
    {n : ℕ} (hcg : (cellAt ls.st cur).gScore = .fin (n : ℤ) 0)
    (hnc : nb ∉ ls.closed) {st' : GridState}
    (hnbv : (cellAt st' nb).lastNode = some cur ∧
      (cellAt st' nb).gScore = .fin ((n : ℤ) + 1) 0)
    (hother : ∀ q, inBounds ls.st q → q ≠ nb →
      (cellAt st' q).lastNode = (cellAt ls.st q).lastNode ∧
      (cellAt st' q).gScore = (cellAt ls.st q).gScore)
    (hbiff : ∀ q, inBounds st' q ↔ inBounds ls.st q) :
    (cellAt st' start).lastNode = none ∧
    (cellAt st' start).gScore = .fin 0 0 ∧
    (∀ p, inBounds st' p → ∀ q, (cellAt st' p).lastNode = some q →
      q ∈ ls.closed ∧ inBounds st' q ∧
      ∃ m : ℕ, (cellAt st' q).gScore = .fin (m : ℤ) 0 ∧
        (cellAt st' p).gScore = .fin ((m : ℤ) + 1) 0) ∧
    (∀ p ∈ ls.closed, p ≠ start → (cellAt st' p).lastNode ≠ none) ∧
    (∀ p ∈ ls.closed, ∃ m : ℕ, (cellAt st' p).gScore = .fin (m : ℤ) 0) ∧
    (∀ p, p ∈ ls.opn ∨ p = nb → p ≠ start → (cellAt st' p).lastNode ≠ none) ∧
    (∀ p, p ∈ ls.opn ∨ p = nb →
      ∃ m : ℕ, (cellAt st' p).gScore = .fin (m : ℤ) 0) ∧
    (∀ p ∈ ls.closed, ∀ m : ℕ,
      (cellAt st' p).gScore = .fin (m : ℤ) 0 → m < ls.closed.length) ∧
    (∀ p, p ∈ ls.opn ∨ p = nb → ∀ m : ℕ,
      (cellAt st' p).gScore = .fin (m : ℤ) 0 → m ≤ ls.closed.length) := by
  have hsne : start ≠ nb := fun h => hnc (h ▸ hstart)
  have hcne : cur ≠ nb := fun h => hnc (h ▸ hcur)
  have hcurb : inBounds ls.st cur := hinv.closed_mem cur hcur
  refine ⟨?_, ?_, ?_, ?_, ?_, ?_, ?_, ?_, ?_⟩
  · rw [(hother start hinv.start_bounds hsne).1]
    exact hinv.start_pred
  · rw [(hother start hinv.start_bounds hsne).2]
    exact hinv.start_g
  · intro p hp q hpq
    have hp' : inBounds ls.st p := (hbiff p).mp hp
    by_cases hpn : p = nb
    · subst hpn
      have hq : q = cur := by
        rw [hnbv.1] at hpq
        exact (Option.some_inj.mp hpq).symm
      subst hq
      refine ⟨hcur, (hbiff q).mpr hcurb, n, ?_, ?_⟩
      · rw [(hother q hcurb hcne).2]
        exact hcg
      · exact hnbv.2
    · rw [(hother p hp' hpn).1] at hpq
      obtain ⟨hqc, hqb, m, hmq, hmp⟩ := hinv.pred_ok p hp' q hpq
      have hqn : q ≠ nb := fun h => hnc (h ▸ hqc)
      refine ⟨hqc, (hbiff q).mpr hqb, m, ?_, ?_⟩
      · rw [(hother q hqb hqn).2]
        exact hmq
      · rw [(hother p hp' hpn).2]
        exact hmp
  · intro p hp hps
    have hpn : p ≠ nb := fun h => hnc (h ▸ hp)
    rw [(hother p (hinv.closed_mem p hp) hpn).1]
    exact hinv.closed_pred p hp hps
  · intro p hp
    have hpn : p ≠ nb := fun h => hnc (h ▸ hp)
    rw [(hother p (hinv.closed_mem p hp) hpn).2]
    exact hinv.closed_g p hp
  · intro p hp hps
    by_cases hpn : p = nb
    · subst hpn
      rw [hnbv.1]
      exact Option.some_ne_none cur
    · rcases hp with hp | hp
      · rw [(hother p ((hinv.opn_mem p hp).1) hpn).1]
        exact hinv.opn_pred p hp hps
      · exact absurd hp hpn
  · intro p hp
    by_cases hpn : p = nb
    · subst hpn
      exact ⟨n + 1, by rw [hnbv.2]; push_cast; ring_nf⟩
    · rcases hp with hp | hp
      · rw [(hother p ((hinv.opn_mem p hp).1) hpn).2]
        exact hinv.opn_g p hp
      · exact absurd hp hpn
  · intro p hp m hm
    have hpn : p ≠ nb := fun h => hnc (h ▸ hp)
    rw [(hother p (hinv.closed_mem p hp) hpn).2] at hm
    exact hinv.closed_g_lt p hp m hm
  · intro p hp m hm
    by_cases hpn : p = nb
    · subst hpn
      rw [hnbv.2] at hm
      have hmn : (m : ℤ) = (n : ℤ) + 1 := by
        have := hm
        simp only [Score.fin.injEq] at this
        omega
      have hlt := hinv.closed_g_lt cur hcur n hcg
      omega
    · rcases hp with hp | hp
      · rw [(hother p ((hinv.opn_mem p hp).1) hpn).2] at hm
        have := hinv.opn_g_le p hp m hm
        omega
      · exact absurd hp hpn

/-- One pass of the neighbor loop preserves the invariant; neither `closed`
nor `pops` changes, and `pushes` only grows. -/
theorem processNeighbor_inv {R C : ℕ} {start fin : ℤ × ℤ} {ls : LoopState}
    {cur : ℤ × ℤ} (hinv : SearchInv R C start fin ls)
    (hcur : cur ∈ ls.closed) (hstart : start ∈ ls.closed)
    (nb : ℤ × ℤ) (hnb : inBounds ls.st nb) :
    SearchInv R C start fin (processNeighbor cur ls nb) ∧
    (processNeighbor cur ls nb).closed = ls.closed := by
  obtain ⟨n, hcg⟩ := hinv.closed_g cur hcur
  rcases processNeighbor_char cur ls nb with heq | ⟨hnc, ⟨hmem, heq⟩ | ⟨hmem, heq⟩⟩
  · rw [heq]
    exact ⟨hinv, rfl⟩
  · -- relaxed in place, already open
    rw [heq]
    have hwf' : WF (relaxedState ls.st cur nb) := WF_relaxedState hinv.wf cur hnb
    have hself := cellAt_relaxedState_self hinv.wf cur hnb
    have hnbv : (cellAt (relaxedState ls.st cur nb) nb).lastNode = some cur ∧
        (cellAt (relaxedState ls.st cur nb) nb).gScore = .fin ((n : ℤ) + 1) 0 := by
      refine ⟨hself.1, ?_⟩
      rw [hself.2, hcg, addScore_fin_one]
    have hother : ∀ q, inBounds ls.st q → q ≠ nb →
        (cellAt (relaxedState ls.st cur nb) q).lastNode =
          (cellAt ls.st q).lastNode ∧
        (cellAt (relaxedState ls.st cur nb) q).gScore =
          (cellAt ls.st q).gScore := by
      intro q hq hqn
      rw [cellAt_relaxedState_ne hinv.wf cur hnb hq hqn]
      exact ⟨rfl, rfl⟩
    obtain ⟨f1, f2, f3, f4, f5, f6, f7, f8, f9⟩ :=
      relax_pred_facts hinv hcur hstart hcg hnc hnbv hother (fun q => Iff.rfl)
    refine ⟨⟨hwf', hinv.rows_eq, hinv.cols_eq, hinv.start_eq, hinv.end_eq,
      hinv.opn_nodup, hinv.opn_mem, hinv.closed_nodup, hinv.closed_mem,
      hinv.pushes_nodup, hinv.opn_pushes, hinv.closed_pushes,
      hinv.pushes_split, Or.inl hstart, hinv.start_bounds, f1, f2, f3, f4,
      fun p hp hps => f6 p (Or.inl hp) hps, fun p hp => f7 p (Or.inl hp),
      f5, f8, fun p hp m hm => f9 p (Or.inl hp) m hm⟩, rfl⟩
  · -- relaxed, repainted purple and pushed
    rw [heq]
    have hwf1 : WF (relaxedState ls.st cur nb) := WF_relaxedState hinv.wf cur hnb
    have hwf' : WF (modifyCell (relaxedState ls.st cur nb) nb
        (fun c => { c with color := purple })) :=
      WF_modifyCell hwf1 hnb (fun _ => ⟨rfl, rfl⟩)
    have hcolor := cellAt_colorModify hwf1 hnb
      (fun c => { c with color := purple })
      (fun c => ⟨rfl, rfl, rfl, rfl, rfl, rfl, rfl, rfl⟩)
    have hself := cellAt_relaxedState_self hinv.wf cur hnb
    have hnbv : (cellAt (modifyCell (relaxedState ls.st cur nb) nb
          (fun c => { c with color := purple })) nb).lastNode = some cur ∧
        (cellAt (modifyCell (relaxedState ls.st cur nb) nb
          (fun c => { c with color := purple })) nb).gScore =
          .fin ((n : ℤ) + 1) 0 := by
      obtain ⟨c1, c2, _⟩ := hcolor nb hnb
      refine ⟨c1.trans hself.1, c2.trans ?_⟩
      rw [hself.2, hcg, addScore_fin_one]
    have hother : ∀ q, inBounds ls.st q → q ≠ nb →
        (cellAt (modifyCell (relaxedState ls.st cur nb) nb
          (fun c => { c with color := purple })) q).lastNode =
          (cellAt ls.st q).lastNode ∧
        (cellAt (modifyCell (relaxedState ls.st cur nb) nb
          (fun c => { c with color := purple })) q).gScore =
          (cellAt ls.st q).gScore := by
      intro q hq hqn
      obtain ⟨c1, c2, _⟩ := hcolor q hq
      rw [c1, c2, cellAt_relaxedState_ne hinv.wf cur hnb hq hqn]
      exact ⟨rfl, rfl⟩
    obtain ⟨f1, f2, f3, f4, f5, f6, f7, f8, f9⟩ :=
      relax_pred_facts hinv hcur hstart hcg hnc hnbv hother (fun q => Iff.rfl)
    have hperm : (heappush (keyLt (relaxedState ls.st cur nb)) ls.opn nb).Perm
        (nb :: ls.opn) := heappush_perm _ _ _
    have hopm : ∀ p, p ∈ heappush (keyLt (relaxedState ls.st cur nb)) ls.opn nb ↔
        (p = nb ∨ p ∈ ls.opn) := by
      intro p
      rw [hperm.mem_iff, List.mem_cons]
    have hnp : nb ∉ ls.pushes := by
      intro h
      rcases hinv.pushes_split nb h with h' | h'
      · exact hmem h'
      · exact hnc h'
    refine ⟨⟨hwf', hinv.rows_eq, hinv.cols_eq, hinv.start_eq, hinv.end_eq,
      ?_, ?_, hinv.closed_nodup, hinv.closed_mem, ?_, ?_, ?_, ?_,
      Or.inl hstart, hinv.start_bounds, f1, f2, f3, f4, ?_, ?_, ?_, f8, ?_⟩, rfl⟩
    · exact hperm.nodup_iff.mpr (List.nodup_cons.mpr ⟨hmem, hinv.opn_nodup⟩)
    · intro p hp
      rcases (hopm p).mp hp with h | h
      · subst h
        exact ⟨hnb, hnc⟩
      · exact hinv.opn_mem p h
    · rw [List.nodup_append]
      exact ⟨hinv.pushes_nodup, List.nodup_singleton nb,
        by simpa [List.disjoint_singleton] using hnp⟩
    · intro p hp
      rcases (hopm p).mp hp with h | h
      · subst h
        exact List.mem_append.mpr (Or.inr (List.mem_singleton.mpr rfl))
      · exact List.mem_append.mpr (Or.inl (hinv.opn_pushes p h))
    · intro p hp
      exact List.mem_append.mpr (Or.inl (hinv.closed_pushes p hp))
    · intro p hp
      rcases List.mem_append.mp hp with h | h
      · rcases hinv.pushes_split p h with h' | h'
        · exact Or.inl ((hopm p).mpr (Or.inr h'))
        · exact Or.inr h'
      · exact Or.inl ((hopm p).mpr (Or.inl (List.mem_singleton.mp h)))
    · intro p hp hps
      exact f6 p ((hopm p).mp hp).symm hps
    · intro p hp
      exact f7 p ((hopm p).mp hp).symm
    · exact f5
    · intro p hp m hm
      exact f9 p ((hopm p).mp hp).symm m hm

theorem foldl_processNeighbor_inv {R C : ℕ} {start fin : ℤ × ℤ}
    (cur : ℤ × ℤ) : ∀ (ns : List (ℤ × ℤ)) (ls : LoopState),
    SearchInv R C start fin ls →
    cur ∈ ls.closed → start ∈ ls.closed →
    (∀ nb ∈ ns, 0 ≤ nb.1 ∧ nb.1 < (R : ℤ) ∧ 0 ≤ nb.2 ∧ nb.2 < (C : ℤ)) →
    SearchInv R C start fin (ns.foldl (processNeighbor cur) ls) ∧
    (ns.foldl (processNeighbor cur) ls).closed = ls.closed := by
  intro ns
  induction ns with
  | nil => intro ls hinv _ _ _; exact ⟨hinv, rfl⟩
  | cons nb t ih =>
    intro ls hinv hcur hstart hb
    rw [List.foldl_cons]
    have hnb : inBounds ls.st nb := by
      obtain ⟨b1, b2, b3, b4⟩ := hb nb (List.mem_cons_self nb t)
      exact ⟨b1, hinv.rows_eq ▸ b2, b3, hinv.cols_eq ▸ b4⟩
    obtain ⟨hinv', hcl⟩ := processNeighbor_inv hinv hcur hstart nb hnb
    obtain ⟨hinv'', hcl'⟩ := ih (processNeighbor cur ls nb) hinv'
      (hcl ▸ hcur) (hcl ▸ hstart) (fun x hx => hb x (List.mem_cons_of_mem nb hx))
    exact ⟨hinv'', hcl'.trans hcl⟩

/-- Every reference the neighbor query returns is on the grid. -/
theorem mem_findNeighbors_inBounds {g : GridState} (hg : WF g)
    (cell : CellData) {p : ℤ × ℤ} (hp : p ∈ findNeighbors g cell) :
    inBounds g p := by
  rw [findNeighbors_eq g hg cell] at hp
  simp only [List.mem_append] at hp
  rcases hp with ((((((h | h) | h) | h) | h) | h) | h) | h <;>
    exact (mem_candidate h).2.1

/-- The whole neighbor loop of one iteration preserves the invariant and the
closed set. -/
theorem expandNeighbors_inv {R C : ℕ} {start fin : ℤ × ℤ} {ls : LoopState}
    {cur : ℤ × ℤ} (hinv : SearchInv R C start fin ls)
    (hcur : cur ∈ ls.closed) (hstart : start ∈ ls.closed) :
    SearchInv R C start fin (expandNeighbors ls cur) ∧
    (expandNeighbors ls cur).closed = ls.closed := by
  unfold expandNeighbors
  refine foldl_processNeighbor_inv cur _ ls hinv hcur hstart ?_
  intro nb hb
  have h := mem_findNeighbors_inBounds hinv.wf (cellAt ls.st cur) hb
  obtain ⟨b1, b2, b3, b4⟩ := h
  exact ⟨b1, hinv.rows_eq ▸ b2, b3, hinv.cols_eq ▸ b4⟩

theorem markVisited_rows (st : GridState) (cur : ℤ × ℤ) :
    (markVisited st cur).rows = st.rows := rfl

theorem markVisited_cols (st : GridState) (cur : ℤ × ℤ) :
    (markVisited st cur).cols = st.cols := rfl

/-- The pop-and-close step: the invariant is preserved, the popped reference
moves from the open to the closed list, and the closed list grows by exactly
one. -/
theorem postPop_inv {R C : ℕ} {start fin : ℤ × ℤ} {ls : LoopState}
    (hinv : SearchInv R C start fin ls) {cur : ℤ × ℤ} {opn1 : List (ℤ × ℤ)}
    (hpop : heappop (keyLt ls.st) ls.opn = some (cur, opn1)) :
    SearchInv R C start fin (postPop ls cur opn1) ∧
    (postPop ls cur opn1).closed.length = ls.closed.length + 1 ∧
    cur ∈ (postPop ls cur opn1).closed ∧
    start ∈ (postPop ls cur opn1).closed := by
  have hperm : ls.opn.Perm (cur :: opn1) := heappop_perm _ _ hpop
  have hcuro : cur ∈ ls.opn := hperm.mem_iff.mpr (List.mem_cons_self cur opn1)
  obtain ⟨hcurb, hcurc⟩ := hinv.opn_mem cur hcuro
  have hnodup : (cur :: opn1).Nodup := hperm.nodup_iff.mp hinv.opn_nodup
  have hcon : cur ∉ opn1 := (List.nodup_cons.mp hnodup).1
  have hop1 : opn1.Nodup := (List.nodup_cons.mp hnodup).2
  have hmemo : ∀ p ∈ opn1, p ∈ ls.opn := fun p hp =>
    hperm.mem_iff.mpr (List.mem_cons_of_mem cur hp)
  have hclosed' : (postPop ls cur opn1).closed = cur :: ls.closed := by
    show ls.closed.insert cur = cur :: ls.closed
    exact List.insert_of_not_mem hcurc
  have hstq : (postPop ls cur opn1).st = markVisited ls.st cur := rfl
  have hwf' : WF (markVisited ls.st cur) :=
    WF_modifyCell hinv.wf hcurb (fun _ => ⟨rfl, rfl⟩)
  have hcell := cellAt_colorModify hinv.wf hcurb
    (fun c => { c with color := if c.isStartNode then c.color else red })
    (fun c => ⟨rfl, rfl, rfl, rfl, rfl, rfl, rfl, rfl⟩)
  have hcells : ∀ q, inBounds ls.st q →
      (cellAt (markVisited ls.st cur) q).lastNode = (cellAt ls.st q).lastNode ∧
      (cellAt (markVisited ls.st cur) q).gScore = (cellAt ls.st q).gScore := by
    intro q hq
    obtain ⟨c1, c2, _⟩ := hcell q hq
    exact ⟨c1, c2⟩
  have hstart' : start ∈ cur :: ls.closed := by
    rcases hinv.phase with h | ⟨h1, h2⟩
    · exact List.mem_cons_of_mem cur h
    · have : cur = start := by
        have := hperm.mem_iff.mpr (List.mem_cons_self cur opn1)
        rw [h1] at hcuro
        exact List.mem_singleton.mp hcuro
      rw [this]
      exact List.mem_cons_self start ls.closed
  refine ⟨⟨hwf', hinv.rows_eq, hinv.cols_eq, hinv.start_eq, hinv.end_eq,
    hop1, ?_, ?_, ?_, hinv.pushes_nodup, ?_, ?_, ?_, ?_, hinv.start_bounds,
    ?_, ?_, ?_, ?_, ?_, ?_, ?_, ?_, ?_⟩, ?_, ?_, ?_⟩
  · intro p hp
    obtain ⟨hb, hc⟩ := hinv.opn_mem p (hmemo p hp)
    refine ⟨hb, ?_⟩
    rw [hclosed']
    intro hmem
    rcases List.mem_cons.mp hmem with h | h
    · exact hcon (h ▸ hp)
    · exact hc h
  · rw [hclosed']
    exact List.nodup_cons.mpr ⟨hcurc, hinv.closed_nodup⟩
  · intro p hp
    rw [hclosed'] at hp
    rcases List.mem_cons.mp hp with h | h
    · exact h ▸ hcurb
    · exact hinv.closed_mem p h
  · intro p hp
    exact hinv.opn_pushes p (hmemo p hp)
  · intro p hp
    rw [hclosed'] at hp
    rcases List.mem_cons.mp hp with h | h
    · exact h ▸ hinv.opn_pushes cur hcuro
    · exact hinv.closed_pushes p h
  · intro p hp
    rw [hclosed']
    rcases hinv.pushes_split p hp with h | h
    · rcases List.mem_cons.mp (hperm.mem_iff.mp h) with h' | h'
      · exact Or.inr (List.mem_cons.mpr (Or.inl h'))
      · exact Or.inl h'
    · exact Or.inr (List.mem_cons_of_mem cur h)
  · rw [hclosed']
    exact Or.inl hstart'
  · rw [hstq, (hcells start hinv.start_bounds).1]
    exact hinv.start_pred
  · rw [hstq, (hcells start hinv.start_bounds).2]
    exact hinv.start_g
  · intro p hp q hpq
    rw [hstq] at hpq
    have hp' : inBounds ls.st p := hp
    rw [(hcells p hp').1] at hpq
    obtain ⟨hqc, hqb, m, hmq, hmp⟩ := hinv.pred_ok p hp' q hpq
    rw [hclosed', hstq]
    exact ⟨List.mem_cons_of_mem cur hqc, hqb, m,
      by rw [(hcells q hqb).2]; exact hmq, by rw [(hcells p hp').2]; exact hmp⟩
  · intro p hp hps
    rw [hclosed'] at hp
    rw [hstq]
    rcases List.mem_cons.mp hp with h | h
    · subst h
      rw [(hcells p hcurb).1]
      exact hinv.opn_pred p hcuro hps
    · rw [(hcells p (hinv.closed_mem p h)).1]
      exact hinv.closed_pred p h hps
  · intro p hp hps
    rw [hstq, (hcells p (hinv.opn_mem p (hmemo p hp)).1).1]
    exact hinv.opn_pred p (hmemo p hp) hps
  · intro p hp
    rw [hstq, (hcells p (hinv.opn_mem p (hmemo p hp)).1).2]
    exact hinv.opn_g p (hmemo p hp)
  · intro p hp
    rw [hclosed'] at hp
    rw [hstq]
    rcases List.mem_cons.mp hp with h | h
    · subst h
      rw [(hcells p hcurb).2]
      exact hinv.opn_g p hcuro
    · rw [(hcells p (hinv.closed_mem p h)).2]
      exact hinv.closed_g p h
  · intro p hp m hm
    rw [hclosed'] at hp
    rw [hstq] at hm
    rw [hclosed', List.length_cons]
    rcases List.mem_cons.mp hp with h | h
    · subst h
      rw [(hcells p hcurb).2] at hm
      have := hinv.opn_g_le p hcuro m hm
      omega
    · rw [(hcells p (hinv.closed_mem p h)).2] at hm
      have := hinv.closed_g_lt p h m hm
      omega
  · intro p hp m hm
    rw [hstq] at hm
    rw [(hcells p (hinv.opn_mem p (hmemo p hp)).1).2] at hm
    rw [hclosed', List.length_cons]
    have := hinv.opn_g_le p (hmemo p hp) m hm
    omega
  · rw [hclosed']
    exact List.length_cons cur ls.closed
  · rw [hclosed']
    exact List.mem_cons_self cur ls.closed
  · rw [hclosed']
    exact hstart'

/-- A duplicate-free list of on-grid references has at most `R * C`
entries. -/
theorem nodup_bounds_length {R C : ℕ} {l : List (ℤ × ℤ)} (hn : l.Nodup)
    (hb : ∀ p ∈ l, 0 ≤ p.1 ∧ p.1 < (R : ℤ) ∧ 0 ≤ p.2 ∧ p.2 < (C : ℤ)) :
    l.length ≤ R * C := by
  have hinj : ∀ x ∈ l, ∀ y ∈ l,
      (x.1.toNat, x.2.toNat) = (y.1.toNat, y.2.toNat) → x = y := by
    intro x hx y hy hxy
    obtain ⟨a1, _, a3, _⟩ := hb x hx
    obtain ⟨b1, _, b3, _⟩ := hb y hy
    have h1 := congrArg Prod.fst hxy
    have h2 := congrArg Prod.snd hxy
    simp only at h1 h2
    exact Prod.ext (by omega) (by omega)
  have hn' : (l.map (fun p : ℤ × ℤ => (p.1.toNat, p.2.toNat))).Nodup :=
    hn.map_on hinj
  have hlen : l.length = (l.map (fun p : ℤ × ℤ => (p.1.toNat, p.2.toNat))).length :=
    (List.length_map _ _).symm
  rw [hlen, ← List.toFinset_card_of_nodup hn']
  have hsub : (l.map (fun p : ℤ × ℤ => (p.1.toNat, p.2.toNat))).toFinset ⊆
      Finset.range R ×ˢ Finset.range C := by
    intro q hq
    rw [List.mem_toFinset, List.mem_map] at hq
    obtain ⟨p, hp, hpq⟩ := hq
    obtain ⟨a1, a2, a3, a4⟩ := hb p hp
    rw [Finset.mem_product, Finset.mem_range, Finset.mem_range, ← hpq]
    exact ⟨by omega, by omega⟩
  calc (l.map (fun p : ℤ × ℤ => (p.1.toNat, p.2.toNat))).toFinset.card
      ≤ (Finset.range R ×ˢ Finset.range C).card := Finset.card_le_card hsub
    _ = R * C := by rw [Finset.card_product, Finset.card_range, Finset.card_range]

/-- The `heapq` pop the loop performs under its nonemptiness guard always
returns an element. -/
theorem heappop_of_ne_nil {α : Type} [Inhabited α] (lt : α → α → Bool)
    {l : List α} (h : l.isEmpty = false) :
    ∃ cur rest, heappop lt l = some (cur, rest) := by
  unfold heappop
  rw [if_neg (by rw [h]; exact Bool.false_ne_true)]
  by_cases hd : l.dropLast.isEmpty
  · exact ⟨l.getLastD default, l.dropLast, by rw [if_pos hd]⟩
  · exact ⟨l.dropLast.headD default, siftup lt l.dropLast 0 (l.getLastD default),
      by rw [if_neg hd]⟩

/-- Fuel induction: as long as the remaining fuel covers the cells not yet
closed, the loop reaches one of its two `return` statements. -/
theorem searchLoop_terminates {R C : ℕ} {start fin : ℤ × ℤ} :
    ∀ (fuel : ℕ) (ls : LoopState), SearchInv R C start fin ls →
    R * C ≤ ls.closed.length + fuel →
    ∃ out, searchLoop fuel ls = some out := by
  intro fuel
  induction fuel with
  | zero =>
    intro ls hinv hfuel
    by_cases he : ls.opn.isEmpty
    · exact ⟨(.exhausted, ls), by unfold searchLoop; rw [if_pos he]⟩
    · exfalso
      obtain ⟨p, hp⟩ := List.exists_mem_of_ne_nil ls.opn
        (by simpa [List.isEmpty_iff] using he)
      obtain ⟨hpb, hpc⟩ := hinv.opn_mem p hp
      have hnodup : (p :: ls.closed).Nodup :=
        List.nodup_cons.mpr ⟨hpc, hinv.closed_nodup⟩
      have hlen : (p :: ls.closed).length ≤ R * C := by
        refine nodup_bounds_length hnodup ?_
        intro q hq
        rcases List.mem_cons.mp hq with h | h
        · subst h
          obtain ⟨a1, a2, a3, a4⟩ := hpb
          exact ⟨a1, hinv.rows_eq ▸ a2, a3, hinv.cols_eq ▸ a4⟩
        · obtain ⟨a1, a2, a3, a4⟩ := hinv.closed_mem q h
          exact ⟨a1, hinv.rows_eq ▸ a2, a3, hinv.cols_eq ▸ a4⟩
      rw [List.length_cons] at hlen
      omega
  | succ fuel ih =>
    intro ls hinv hfuel
    by_cases he : ls.opn.isEmpty
    · exact ⟨(.exhausted, ls), by unfold searchLoop; rw [if_pos he]⟩
    · obtain ⟨cur, opn1, hpop⟩ :=
        heappop_of_ne_nil (keyLt ls.st) (by simpa using he)
      obtain ⟨hinv', hlen', hcur', hstart'⟩ := postPop_inv hinv hpop
      by_cases hend : isEndReached (markVisited ls.st cur) cur
      · refine ⟨foundReturn (postPop ls cur opn1) cur, ?_⟩
        unfold searchLoop
        rw [if_neg he, hpop]
        show (if isEndReached (markVisited ls.st cur) cur = true then
            some (foundReturn (postPop ls cur opn1) cur)
          else searchLoop fuel (expandNeighbors (postPop ls cur opn1) cur)) =
          some (foundReturn (postPop ls cur opn1) cur)
        rw [if_pos hend]
      · obtain ⟨hinv'', hcl''⟩ := expandNeighbors_inv hinv' hcur' hstart'
        obtain ⟨out, hout⟩ := ih (expandNeighbors (postPop ls cur opn1) cur)
          hinv'' (by rw [hcl'']; omega)
        refine ⟨out, ?_⟩
        unfold searchLoop
        rw [if_neg he, hpop]
        show (if isEndReached (markVisited ls.st cur) cur = true then
            some (foundReturn (postPop ls cur opn1) cur)
          else searchLoop fuel (expandNeighbors (postPop ls cur opn1) cur)) =
          some out
        rw [if_neg hend]
        exact hout

theorem resetCell_row (b : Bool) (c : CellData) : (resetCell b c).row = c.row := by
  simp only [resetCell, setWalkable]
  split <;> rfl

theorem resetCell_col (b : Bool) (c : CellData) : (resetCell b c).col = c.col := by
  simp only [resetCell, setWalkable]
  split <;> rfl

theorem resetCell_lastNode (b : Bool) (c : CellData) :
    (resetCell b c).lastNode = none := rfl

theorem WF_reset {g : GridState} (hg : WF g) (b : Bool) : WF (reset g b) := by
  obtain ⟨hlen, hrows, hcoords, hs, he⟩ := hg
  refine ⟨?_, ?_, ?_, hs, he⟩
  · simpa [reset] using hlen
  · intro row hrow
    simp only [reset, List.mem_map] at hrow
    obtain ⟨r, hr, hrq⟩ := hrow
    rw [← hrq, List.length_map]
    exact hrows r hr
  · intro i hi j hj
    have hb : inBounds g ((i : ℤ), (j : ℤ)) :=
      ⟨by simp, by simpa using hi, by simp, by simpa using hj⟩
    rw [show cellAt (reset g b) ((i : ℤ), (j : ℤ)) =
          resetCell b (cellAt g ((i : ℤ), (j : ℤ))) from
        cellAt_reset g ⟨hlen, hrows, hcoords, hs, he⟩ hb b,
      resetCell_row, resetCell_col]
    exact hcoords i hi j hj

theorem WF_setUpFlagNodes {g : GridState} (hg : WF g) : WF (setUpFlagNodes g) := by
  unfold setUpFlagNodes
  have h1 := WF_modifyCell hg hg.2.2.2.1 (f := fun c => setWalkable c true)
    (fun c => ⟨rfl, rfl⟩)
  have h2 := WF_modifyCell h1 h1.2.2.2.2 (f := fun c => setWalkable c true)
    (fun c => ⟨rfl, rfl⟩)
  have h3 := WF_modifyCell h2 h2.2.2.2.1 (f := fun c => setIsStartNode c true)
    (fun c => ⟨setIsStartNode_row c true, setIsStartNode_col c true⟩)
  exact WF_modifyCell h3 h3.2.2.2.2 (f := fun c => setIsEndNode c true)
    (fun c => ⟨setIsEndNode_row c true, setIsEndNode_col c true⟩)

/-- The setup states of `Grid.find_optimal_path`, named: after the flag/reset
phase, after seeding the start `g_score`, and after seeding its `f_score`. -/
def g2of (g : GridState) : GridState := reset (setUpFlagNodes g) false

def g3of (g : GridState) : GridState :=
  modifyCell (g2of g) (g2of g).startNode (fun c => { c with gScore := .fin 0 0 })

def g4of (g : GridState) : GridState :=
  modifyCell (g3of g) (g3of g).startNode
    (fun c =>
      { c with
        fScore :=
          computeDiagonalDistance (g3of g) (cellAt (g3of g) (g3of g).startNode) })

def initLS (g : GridState) : LoopState :=
  { st := g4of g, opn := [(g3of g).startNode], closed := [], pops := [],
    pushes := [(g3of g).startNode] }

theorem heappush_nil {α : Type} [Inhabited α] (lt : α → α → Bool) (item : α) :
    heappush lt [] item = [item] := rfl

theorem findOptimalPath_eq (g : GridState) :
    findOptimalPath g = searchLoop (g.rows * g.cols) (initLS g) := by
  simp only [findOptimalPath, initLS, g4of, g3of, g2of, heappush_nil]

theorem WF_g4of {g : GridState} (hg : WF g) : WF (g4of g) := by
  have h2 : WF (g2of g) := WF_reset (WF_setUpFlagNodes hg) false
  have h3 : WF (g3of g) := WF_modifyCell h2 h2.2.2.2.1 (fun c => ⟨rfl, rfl⟩)
  exact WF_modifyCell h3 h3.2.2.2.1 (fun c => ⟨rfl, rfl⟩)

/-- After the bookkeeping reset of `find_optimal_path`, every predecessor
reference is cleared, and the start seeding wrote `g_score = 0` on the start
cell and nothing else. -/
theorem g4of_cells {g : GridState} (hg : WF g) :
    (∀ p, inBounds (g4of g) p → (cellAt (g4of g) p).lastNode = none) ∧
    (cellAt (g4of g) (g3of g).startNode).gScore = .fin 0 0 := by
  have h1 : WF (setUpFlagNodes g) := WF_setUpFlagNodes hg
  have h2 : WF (g2of g) := WF_reset h1 false
  have h3 : WF (g3of g) := WF_modifyCell h2 h2.2.2.2.1 (fun c => ⟨rfl, rfl⟩)
  have hsb2 : inBounds (g2of g) (g2of g).startNode := h2.2.2.2.1
  have hsb3 : inBounds (g3of g) (g3of g).startNode := h3.2.2.2.1
  have hln2 : ∀ p, inBounds (g2of g) p → (cellAt (g2of g) p).lastNode = none := by
    intro p hp
    rw [show cellAt (g2of g) p = resetCell false (cellAt (setUpFlagNodes g) p) from
      cellAt_reset _ h1 hp false]
    exact resetCell_lastNode _ _
  have hg3e : g3of g = modifyCell (g2of g) (g2of g).startNode
      (fun c => { c with gScore := .fin 0 0 }) := rfl
  have hg4e : g4of g = modifyCell (g3of g) (g3of g).startNode
      (fun c =>
        { c with
          fScore :=
            computeDiagonalDistance (g3of g)
              (cellAt (g3of g) (g3of g).startNode) }) := rfl
  have hln3 : ∀ p, inBounds (g3of g) p → (cellAt (g3of g) p).lastNode = none := by
    intro p hp
    have hp2 : inBounds (g2of g) p := hp
    by_cases hps : p = (g2of g).startNode
    · rw [hg3e, hps, cellAt_modifyCell_self h2 hsb2]
      exact hln2 _ hsb2
    · rw [hg3e, cellAt_modifyCell_ne h2 hsb2 hp2 hps]
      exact hln2 p hp2
  have hg3 : (cellAt (g3of g) (g3of g).startNode).gScore = .fin 0 0 := by
    have hs23 : (g3of g).startNode = (g2of g).startNode := rfl
    rw [hs23, hg3e, cellAt_modifyCell_self h2 hsb2]
  constructor
  · intro p hp
    have hp3 : inBounds (g3of g) p := hp
    by_cases hps : p = (g3of g).startNode
    · rw [hg4e, hps, cellAt_modifyCell_self h3 hsb3]
      exact hln3 _ hsb3
    · rw [hg4e, cellAt_modifyCell_ne h3 hsb3 hp3 hps]
      exact hln3 p hp3
  · rw [hg4e, cellAt_modifyCell_self h3 hsb3]
    exact hg3

/-- The state entering the `while` loop satisfies the invariant. -/
theorem initLS_inv {g : GridState} (hg : WF g) :
    SearchInv (g4of g).rows (g4of g).cols (g3of g).startNode (g4of g).endNode
      (initLS g) := by
  have hwf : WF (g4of g) := WF_g4of hg
  obtain ⟨hpred, hg0⟩ := g4of_cells hg
  have hs4 : (g4of g).startNode = (g3of g).startNode := rfl
  have hsb : inBounds (g4of g) (g3of g).startNode := hs4 ▸ hwf.2.2.2.1
  unfold initLS
  refine ⟨hwf, rfl, rfl, hs4, rfl, List.nodup_singleton _, ?_,
    List.nodup_nil, ?_, List.nodup_singleton _, ?_, ?_, ?_,
    Or.inr ⟨rfl, rfl⟩, hsb, hpred _ hsb, hg0, ?_, ?_, ?_, ?_, ?_, ?_, ?_⟩
  · intro p hp
    rw [List.mem_singleton.mp hp]
    exact ⟨hsb, List.not_mem_nil _⟩
  · intro p hp
    exact absurd hp (List.not_mem_nil p)
  · intro p hp
    exact hp
  · intro p hp
    exact absurd hp (List.not_mem_nil p)
  · intro p hp
    exact Or.inl hp
  · intro p hp q hpq
    rw [hpred p hp] at hpq
    cases hpq
  · intro p hp
    exact absurd hp (List.not_mem_nil p)
  · intro p hp hps
    exact absurd (List.mem_singleton.mp hp) hps
  · intro p hp
    rw [List.mem_singleton.mp hp]
    exact ⟨0, hg0⟩
  · intro p hp
    exact absurd hp (List.not_mem_nil p)
  · intro p hp
    exact absurd hp (List.not_mem_nil p)
  · intro p hp m hm
    rw [List.mem_singleton.mp hp] at hm
    rw [hg0] at hm
    simp only [Score.fin.injEq] at hm
    simp only [List.length_nil]
    omega

theorem foundReturn_pushes (ls1 : LoopState) (currentNode : ℤ × ℤ) :
    (foundReturn ls1 currentNode).2.pushes = ls1.pushes := rfl

theorem postPop_pushes (ls : LoopState) (currentNode : ℤ × ℤ)
    (opn1 : List (ℤ × ℤ)) : (postPop ls currentNode opn1).pushes = ls.pushes := rfl

/-- Whatever the loop returns: the ghost insertion record has no duplicates
(each cell is `put` at most once over the whole run), and the loop ran at
most `fuel` iterations (one ghost pop record each). -/
theorem searchLoop_run {R C : ℕ} {start fin : ℤ × ℤ} :
    ∀ (fuel : ℕ) (ls : LoopState), SearchInv R C start fin ls →
    ∀ out, searchLoop fuel ls = some out →
    out.2.pushes.Nodup ∧ out.2.pops.length ≤ ls.pops.length + fuel := by
  intro fuel
  induction fuel with
  | zero =>
    intro ls hinv out hout
    unfold searchLoop at hout
    by_cases he : ls.opn.isEmpty
    · rw [if_pos he] at hout
      cases hout
      exact ⟨hinv.pushes_nodup, Nat.le_add_right _ _⟩
    · rw [if_neg he] at hout
      cases hout
  | succ fuel ih =>
    intro ls hinv out hout
    unfold searchLoop at hout
    by_cases he : ls.opn.isEmpty
    · rw [if_pos he] at hout
      cases hout
      exact ⟨hinv.pushes_nodup, Nat.le_add_right _ _⟩
    · rw [if_neg he] at hout
      split at hout
      · cases hout
        exact ⟨hinv.pushes_nodup, Nat.le_add_right _ _⟩
      · next currentNode opn1 hpop =>
        obtain ⟨hinv', hlen', hcur', hstart'⟩ := postPop_inv hinv hpop
        split at hout
        · cases hout
          refine ⟨?_, ?_⟩
          · rw [foundReturn_pushes, postPop_pushes]
            exact hinv.pushes_nodup
          · rw [foundReturn_pops, postPop_pops, List.length_append]
            simp only [List.length_singleton]
            omega
        · obtain ⟨hinv'', hcl''⟩ := expandNeighbors_inv hinv' hcur' hstart'
          obtain ⟨hnd, hlen⟩ := ih _ hinv'' out hout
          refine ⟨hnd, ?_⟩
          rw [expandNeighbors_pops, postPop_pops, List.length_append] at hlen
          simp only [List.length_singleton] at hlen
          omega

/--
C8: on every well-formed grid, `find_optimal_path` terminates without any
internal timeout: the modelled `while` loop returns within `rows * cols`
iterations (the ghost pop trace, one record per iteration, has length at
most `rows * cols`), because the membership guards of `_is_optimal_neighbor`
and of the `put` (`neighbor not in closed_set`, `neighbor not in
open_set.queue`) ensure no cell is ever inserted into the open set while
already a member and no closed cell is re-inserted — the whole run performs
at most one insertion per cell (`pushes.Nodup`), so the closed set grows by
one fresh cell per iteration and the open set empties after at most
`rows * cols` expansions.
-/
theorem C8_termination (g : GridState) (hg : WF g) :
    ∃ out, findOptimalPath g = some out ∧
      out.2.pops.length ≤ g.rows * g.cols ∧ out.2.pushes.Nodup := by
  have hinv0 := initLS_inv hg
  obtain ⟨out, hout⟩ := searchLoop_terminates (g.rows * g.cols) (initLS g) hinv0
    (by
      show (g4of g).rows * (g4of g).cols ≤ (initLS g).closed.length + g.rows * g.cols
      have h1 : (g4of g).rows = g.rows := rfl
      have h2 : (g4of g).cols = g.cols := rfl
      have h3 : (initLS g).closed.length = 0 := rfl
      rw [h1, h2, h3]
      omega)
  obtain ⟨hnd, hlen⟩ := searchLoop_run _ _ hinv0 out hout
  refine ⟨out, ?_, ?_, hnd⟩
  · rw [findOptimalPath_eq]
    exact hout
  · have h0 : (initLS g).pops.length = 0 := rfl
    omega

/-- Witness for C8 at the fresh 3×3 grid. -/
theorem C8_termination_witness :
    WF (initGrid 3 3) ∧
    ∃ out, findOptimalPath (initGrid 3 3) = some out ∧
      out.2.pops.length ≤ (initGrid 3 3).rows * (initGrid 3 3).cols ∧
      out.2.pushes.Nodup :=
  ⟨by decide, C8_termination (initGrid 3 3) (by decide)⟩

/-!
## Claim C7: the shape of the two terminal results
-/

/-- On a well-formed grid, each cell records its own position. -/
theorem cellAt_coords {g : GridState} (hg : WF g) {p : ℤ × ℤ}
    (hp : inBounds g p) : (cellAt g p).row = p.1 ∧ (cellAt g p).col = p.2 := by
  obtain ⟨hlen, hrows, hcoords, _⟩ := hg
  obtain ⟨h1, h2, h3, h4⟩ := hp
  have h := hcoords p.1.toNat (by omega) p.2.toNat (by omega)
  have e : ((p.1.toNat : ℤ), (p.2.toNat : ℤ)) = p := Prod.ext (by omega) (by omega)
  rw [e] at h
  exact ⟨by rw [h.1]; omega, by rw [h.2]; omega⟩

/-- A popped cell passes the end test iff it is the end cell itself. -/
theorem isEndReached_iff {st : GridState} (hg : WF st) {cur : ℤ × ℤ}
    (hcur : inBounds st cur) :
    isEndReached st cur = true ↔ cur = st.endNode := by
  have hend : inBounds st st.endNode := hg.2.2.2.2
  obtain ⟨hr1, hc1⟩ := cellAt_coords hg hcur
  obtain ⟨hr2, hc2⟩ := cellAt_coords hg hend
  unfold isEndReached
  rw [Bool.and_eq_true, beq_iff_eq, beq_iff_eq, hr1, hc1, hr2, hc2]
  constructor
  · intro ⟨h1, h2⟩
    exact Prod.ext h1 h2
  · intro h
    exact ⟨congrArg Prod.fst h, congrArg Prod.snd h⟩

theorem setIsEndNode_lastNode (c : CellData) (b : Bool) :
    (setIsEndNode c b).lastNode = c.lastNode := by
  unfold setIsEndNode
  split <;> rfl

/-- The colouring pass of `_reconstruct_path` touches no predecessor link,
no flag reference and no dimension. -/
theorem reconstructColors_facts :
    ∀ (walk : List (ℤ × ℤ)) (st : GridState), WF st →
    (∀ x ∈ walk, inBounds st x) →
    WF (reconstructColors st walk) ∧
    (reconstructColors st walk).rows = st.rows ∧
    (reconstructColors st walk).cols = st.cols ∧
    (reconstructColors st walk).startNode = st.startNode ∧
    (reconstructColors st walk).endNode = st.endNode ∧
    ∀ q, inBounds st q →
      (cellAt (reconstructColors st walk) q).lastNode = (cellAt st q).lastNode := by
  intro walk
  induction walk with
  | nil =>
    intro st hg _
    exact ⟨hg, rfl, rfl, rfl, rfl, fun q _ => rfl⟩
  | cons x xs ih =>
    intro st hg hb
    have hx : inBounds st x := hb x (List.mem_cons_self x xs)
    have hg' : WF (modifyCell st x
        (fun c => { c with color := if !c.isStartNode then cyan else c.color })) :=
      WF_modifyCell hg hx (fun c => ⟨rfl, rfl⟩)
    have hstep : reconstructColors st (x :: xs) =
        reconstructColors (modifyCell st x
          (fun c => { c with color := if !c.isStartNode then cyan else c.color }))
          xs := rfl
    have hb' : ∀ y ∈ xs, inBounds (modifyCell st x
        (fun c => { c with color := if !c.isStartNode then cyan else c.color })) y :=
      fun y hy => hb y (List.mem_cons_of_mem x hy)
    obtain ⟨w1, w2, w3, w4, w5, w6⟩ := ih _ hg' hb'
    rw [hstep]
    refine ⟨w1, w2, w3, w4, w5, ?_⟩
    intro q hq
    rw [w6 q hq]
    by_cases hqx : q = x
    · rw [hqx, cellAt_modifyCell_self hg hx]
    · rw [cellAt_modifyCell_ne hg hx hq hqx]

/-- Predecessor chains survive any state change that keeps the predecessor
links of the listed cells. -/
theorem chain_lastNode_transfer {st1 st2 : GridState} :
    ∀ (l : List (ℤ × ℤ)),
    (∀ a ∈ l, (cellAt st2 a).lastNode = (cellAt st1 a).lastNode) →
    List.Chain' (fun a b => (cellAt st1 a).lastNode = some b) l →
    List.Chain' (fun a b => (cellAt st2 a).lastNode = some b) l := by
  intro l
  induction l with
  | nil => intro _ _; exact List.chain'_nil
  | cons x xs ih =>
    intro h hc
    rw [List.chain'_cons'] at hc ⊢
    refine ⟨?_, ih (fun a ha => h a (List.mem_cons_of_mem x ha)) hc.2⟩
    intro b hb
    rw [h x (List.mem_cons_self x xs)]
    exact hc.1 b hb

/-- Walking the predecessor links from any closed cell with `g_score = n`
(and `n` below the fuel) visits only closed cells, follows the links, and
ends at the start cell. -/
theorem reconstructWalk_spec {st : GridState} {closedL : List (ℤ × ℤ)}
    {start : ℤ × ℤ}
    (hpred_ok : ∀ p, inBounds st p → ∀ q, (cellAt st p).lastNode = some q →
      q ∈ closedL ∧ inBounds st q ∧
      ∃ m : ℕ, (cellAt st q).gScore = .fin (m : ℤ) 0 ∧
        (cellAt st p).gScore = .fin ((m : ℤ) + 1) 0)
    (hclosed_pred : ∀ p ∈ closedL, p ≠ start → (cellAt st p).lastNode ≠ none)
    (hclosed_mem : ∀ p ∈ closedL, inBounds st p) :
    ∀ (n : ℕ) (fuel : ℕ) (p : ℤ × ℤ), p ∈ closedL →
    (cellAt st p).gScore = .fin (n : ℤ) 0 → n < fuel →
    (reconstructWalk st fuel p).head? = some p ∧
    (reconstructWalk st fuel p).getLast? = some start ∧
    List.Chain' (fun a b => (cellAt st a).lastNode = some b)
      (reconstructWalk st fuel p) ∧
    ∀ x ∈ reconstructWalk st fuel p, x ∈ closedL := by
  intro n
  induction n using Nat.strong_induction_on with
  | _ n ih =>
    intro fuel p hp hg hn
    obtain ⟨fuel', rfl⟩ : ∃ f, fuel = f + 1 := ⟨fuel - 1, by omega⟩
    cases hln : (cellAt st p).lastNode with
    | none =>
      have hps : p = start := by
        by_contra hne
        exact hclosed_pred p hp hne hln
      have hwalk : reconstructWalk st (fuel' + 1) p = [p] := by
        show p :: (match (cellAt st p).lastNode with
          | none => []
          | some q => reconstructWalk st fuel' q) = [p]
        rw [hln]
      rw [hwalk]
      refine ⟨rfl, ?_, List.chain'_singleton p, ?_⟩
      · rw [hps]; rfl
      · intro x hx
        rw [List.mem_singleton.mp hx]
        exact hp
    | some q =>
      obtain ⟨hqc, hqb, m, hmq, hmp⟩ :=
        hpred_ok p (hclosed_mem p hp) q hln
      have hnm : n = m + 1 := by
        rw [hg] at hmp
        simp only [Score.fin.injEq] at hmp
        omega
      have hmfuel : m < fuel' := by omega
      obtain ⟨ih1, ih2, ih3, ih4⟩ := ih m (by omega) fuel' q hqc hmq hmfuel
      have hwalk : reconstructWalk st (fuel' + 1) p =
          p :: reconstructWalk st fuel' q := by
        show p :: (match (cellAt st p).lastNode with
          | none => []
          | some q => reconstructWalk st fuel' q) = p :: reconstructWalk st fuel' q
        rw [hln]
      rw [hwalk]
      have hne : reconstructWalk st fuel' q ≠ [] := by
        intro h
        rw [h] at ih1
        cases ih1
      refine ⟨rfl, ?_, ?_, ?_⟩
      · obtain ⟨y, ys, hys⟩ := List.exists_cons_of_ne_nil hne
        rw [hys, List.getLast?_cons_cons, ← hys]
        exact ih2
      · rw [List.chain'_cons']
        refine ⟨?_, ih3⟩
        intro b hb
        rw [ih1] at hb
        have hbq : q = b := by simpa using hb
        rw [hln, hbq]
      · intro x hx
        rcases List.mem_cons.mp hx with h | h
        · exact h ▸ hp
        · exact ih4 x h

/-- What the `Found` return of the loop contains: the reversed predecessor
walk, a nonempty start-to-end sequence chained by `last_node` links. -/
theorem foundReturn_spec {R C : ℕ} {start fin : ℤ × ℤ} {ls1 : LoopState}
    (hinv' : SearchInv R C start fin ls1) {cur : ℤ × ℤ}
    (hcur' : cur ∈ ls1.closed)
    (hend : isEndReached ls1.st cur = true) :
    ∀ path, (foundReturn ls1 cur).1 = .found path →
      path ≠ [] ∧ path.head? = some start ∧ path.getLast? = some fin ∧
      (cellAt (foundReturn ls1 cur).2.st start).lastNode = none ∧
      List.Chain' (fun a b => (cellAt (foundReturn ls1 cur).2.st b).lastNode = some a)
        path := by
  have hcurb : inBounds ls1.st cur := hinv'.closed_mem cur hcur'
  have hcf : cur = fin :=
    ((isEndReached_iff hinv'.wf hcurb).mp hend).trans hinv'.end_eq
  obtain ⟨n, hn⟩ := hinv'.closed_g cur hcur'
  have hnlt : n < ls1.closed.length := hinv'.closed_g_lt cur hcur' n hn
  have hclen : ls1.closed.length ≤ R * C := by
    refine nodup_bounds_length hinv'.closed_nodup ?_
    intro q hq
    obtain ⟨a1, a2, a3, a4⟩ := hinv'.closed_mem q hq
    exact ⟨a1, hinv'.rows_eq ▸ a2, a3, hinv'.cols_eq ▸ a4⟩
  have hfuel : ls1.st.rows * ls1.st.cols = R * C := by
    rw [hinv'.rows_eq, hinv'.cols_eq]
  obtain ⟨w1, w2, w3, w4⟩ :=
    reconstructWalk_spec hinv'.pred_ok hinv'.closed_pred hinv'.closed_mem
      n (ls1.st.rows * ls1.st.cols) cur hcur' hn (by rw [hfuel]; omega)
  have hwalkb : ∀ x ∈ reconstructWalk ls1.st (ls1.st.rows * ls1.st.cols) cur,
      inBounds ls1.st x := fun x hx => hinv'.closed_mem x (w4 x hx)
  obtain ⟨rcwf, rc2, rc3, _, _, rc6⟩ :=
    reconstructColors_facts _ ls1.st hinv'.wf hwalkb
  have hf1 : (foundReturn ls1 cur).1 =
      .found ((reconstructWalk ls1.st (ls1.st.rows * ls1.st.cols) cur).reverse) :=
    rfl
  have hf2 : (foundReturn ls1 cur).2.st =
      modifyCell
        (reconstructColors ls1.st
          (reconstructWalk ls1.st (ls1.st.rows * ls1.st.cols) cur))
        cur (fun c => setIsEndNode c true) := rfl
  have hcurb2 : inBounds
      (reconstructColors ls1.st
        (reconstructWalk ls1.st (ls1.st.rows * ls1.st.cols) cur)) cur :=
    inBounds_of_dims rc2 rc3 hcurb
  have hpres : ∀ q, inBounds ls1.st q →
      (cellAt (foundReturn ls1 cur).2.st q).lastNode =
        (cellAt ls1.st q).lastNode := by
    intro q hq
    have hq2 : inBounds
        (reconstructColors ls1.st
          (reconstructWalk ls1.st (ls1.st.rows * ls1.st.cols) cur)) q :=
      inBounds_of_dims rc2 rc3 hq
    rw [hf2]
    by_cases hqc : q = cur
    · rw [hqc, cellAt_modifyCell_self rcwf hcurb2, setIsEndNode_lastNode,
        rc6 cur hcurb]
    · rw [cellAt_modifyCell_ne rcwf hcurb2 hq2 hqc, rc6 q hq]
  intro path hpath
  rw [hf1] at hpath
  have hpw : path =
      (reconstructWalk ls1.st (ls1.st.rows * ls1.st.cols) cur).reverse :=
    (PathResult.found.inj hpath).symm
  subst hpw
  have hwne : reconstructWalk ls1.st (ls1.st.rows * ls1.st.cols) cur ≠ [] := by
    intro h
    rw [h] at w1
    cases w1
  refine ⟨?_, ?_, ?_, ?_, ?_⟩
  · intro h
    rw [List.reverse_eq_nil_iff] at h
    exact hwne h
  · rw [List.head?_reverse]
    exact w2
  · rw [List.getLast?_reverse, w1, hcf]
  · rw [hpres start hinv'.start_bounds]
    exact hinv'.start_pred
  · refine List.chain'_reverse.mpr ?_
    exact chain_lastNode_transfer _
      (fun a ha => hpres a (hwalkb a ha)) w3

/-- The loop returns either `Exhausted` — then the open set is empty and no
recorded pop of this run removed the end cell — or `Found` with the reversed
predecessor walk from the end cell back to the start cell. -/
theorem searchLoop_c7 {R C : ℕ} {start fin : ℤ × ℤ} :
    ∀ (fuel : ℕ) (ls : LoopState), SearchInv R C start fin ls →
    ∀ out, searchLoop fuel ls = some out →
    (out.1 = .exhausted →
      out.2.opn = [] ∧ ∀ ev ∈ out.2.pops, ev ∈ ls.pops ∨ ev.popped ≠ fin) ∧
    (∀ path, out.1 = .found path →
      path ≠ [] ∧ path.head? = some start ∧ path.getLast? = some fin ∧
      (cellAt out.2.st start).lastNode = none ∧
      List.Chain' (fun a b => (cellAt out.2.st b).lastNode = some a) path) := by
  intro fuel
  induction fuel with
  | zero =>
    intro ls hinv out hout
    unfold searchLoop at hout
    by_cases he : ls.opn.isEmpty
    · rw [if_pos he] at hout
      cases hout
      exact ⟨fun _ => ⟨List.isEmpty_iff.mp he, fun ev hev => Or.inl hev⟩,
        fun path h => PathResult.noConfusion h⟩
    · rw [if_neg he] at hout
      cases hout
  | succ fuel ih =>
    intro ls hinv out hout
    unfold searchLoop at hout
    by_cases he : ls.opn.isEmpty
    · rw [if_pos he] at hout
      cases hout
      exact ⟨fun _ => ⟨List.isEmpty_iff.mp he, fun ev hev => Or.inl hev⟩,
        fun path h => PathResult.noConfusion h⟩
    · rw [if_neg he] at hout
      split at hout
      · next hpop =>
        exfalso
        obtain ⟨c, r, hsome⟩ := heappop_of_ne_nil (keyLt ls.st) (by simpa using he)
        rw [hsome] at hpop
        cases hpop
      · next currentNode opn1 hpop =>
        obtain ⟨hinv', hlen', hcur', hstart'⟩ := postPop_inv hinv hpop
        split at hout
        · next hend =>
          cases hout
          constructor
          · intro h
            exact PathResult.noConfusion h
          · exact foundReturn_spec hinv' hcur' hend
        · next hend =>
          obtain ⟨hinv'', hcl''⟩ := expandNeighbors_inv hinv' hcur' hstart'
          obtain ⟨hex, hfd⟩ := ih _ hinv'' out hout
          refine ⟨?_, hfd⟩
          intro h
          obtain ⟨h1, h2⟩ := hex h
          refine ⟨h1, ?_⟩
          intro ev hev
          rcases h2 ev hev with hmem | hne
          · rw [expandNeighbors_pops, postPop_pops] at hmem
            rcases List.mem_append.mp hmem with h | h
            · exact Or.inl h
            · refine Or.inr ?_
              rw [List.mem_singleton.mp h]
              show currentNode ≠ fin
              intro hcf
              have hcurb : inBounds (postPop ls currentNode opn1).st currentNode :=
                hinv'.closed_mem currentNode hcur'
              have : isEndReached (markVisited ls.st currentNode) currentNode =
                  true := by
                refine (isEndReached_iff hinv'.wf hcurb).mpr ?_
                rw [hinv'.end_eq]
                exact hcf
              exact hend this
          · exact Or.inr hne

/--
C7: on every well-formed grid, `find_optimal_path` returns normally (`some`
result, never a raised error) with one of exactly two outcomes: `Found` with
the sequence of cell references leading from the start cell to the end cell
— the predecessor (`last_node`) walk from the end back to the start (whose
link ends at the start cell, where `last_node` is `None`), reversed — or
`Exhausted`, in which case the open set has emptied and no iteration ever
popped the end cell.  The no-path outcome is this `Exhausted` value, not an
exception.
-/
theorem C7_result (g : GridState) (hg : WF g) :
    ∃ out, findOptimalPath g = some out ∧
      ((∃ path, out.1 = PathResult.found path ∧ path ≠ [] ∧
          path.head? = some g.startNode ∧ path.getLast? = some g.endNode ∧
          (cellAt out.2.st g.startNode).lastNode = none ∧
          List.Chain' (fun a b => (cellAt out.2.st b).lastNode = some a) path) ∨
       (out.1 = PathResult.exhausted ∧ out.2.opn = [] ∧
          ∀ ev ∈ out.2.pops, ev.popped ≠ g.endNode)) := by
  have hinv0 := initLS_inv hg
  obtain ⟨out, hout⟩ := searchLoop_terminates (g.rows * g.cols) (initLS g) hinv0
    (by
      show (g4of g).rows * (g4of g).cols ≤ (initLS g).closed.length + g.rows * g.cols
      have h1 : (g4of g).rows = g.rows := rfl
      have h2 : (g4of g).cols = g.cols := rfl
      have h3 : (initLS g).closed.length = 0 := rfl
      rw [h1, h2, h3]
      omega)
  obtain ⟨hex, hfd⟩ := searchLoop_c7 (g.rows * g.cols) (initLS g) hinv0 out hout
  refine ⟨out, ?_, ?_⟩
  · rw [findOptimalPath_eq]
    exact hout
  · cases hres : out.1 with
    | found path =>
      left
      obtain ⟨p1, p2, p3, p4, p5⟩ := hfd path hres
      exact ⟨path, rfl, p1, p2, p3, p4, p5⟩
    | exhausted =>
      right
      obtain ⟨h1, h2⟩ := hex hres
      refine ⟨rfl, h1, ?_⟩
      intro ev hev
      rcases h2 ev hev with h | h
      · exact absurd h (List.not_mem_nil ev)
      · exact h

/-- Witness for C7 at the fresh 2×2 grid. -/
theorem C7_result_witness :
    WF (initGrid 2 2) ∧
    ∃ out, findOptimalPath (initGrid 2 2) = some out ∧
      ((∃ path, out.1 = PathResult.found path ∧ path ≠ [] ∧
          path.head? = some (initGrid 2 2).startNode ∧
          path.getLast? = some (initGrid 2 2).endNode ∧
          (cellAt out.2.st (initGrid 2 2).startNode).lastNode = none ∧
          List.Chain' (fun a b => (cellAt out.2.st b).lastNode = some a) path) ∨
       (out.1 = PathResult.exhausted ∧ out.2.opn = [] ∧
          ∀ ev ∈ out.2.pops, ev.popped ≠ (initGrid 2 2).endNode)) :=
  ⟨by decide, C7_result (initGrid 2 2) (by decide)⟩

end Pathfinder
